import Mathlib

/-!
Verification of the route-solver repository (Rust) against its specification.

The development shallowly embeds the core of the repository:

* `route-solver-shared/src/lib.rs` — the date-range algebra
  (`SingleDateRange`, `DateRestrictions`, `intersect`, `truncate`, the
  day-by-day iterator);
* `route-solver-backend/src/router.rs` — the best-first itinerary search
  (`FlightNode`, `fill_dest_list`, `expand_node`, `perform_graph_search`,
  `calc`);
* `route-solver-backend/src/flight_api.rs` — the price oracle
  (`SkyScannerApiQuery::get_price` caching, the rate-limit retry loop,
  `QueryError`).

Modelling conventions:

* `chrono::NaiveDate` is totally ordered and supports "add n days"; it is
  embedded as `Int` (a day number), which carries exactly the order and
  day-arithmetic structure the code uses.  `Duration::days(n)` is likewise an
  `Int`.
* `f32` prices are embedded as `Int` (whole currency units — the claims
  depend only on the ordering and additivity of prices, all the
  repository's own test prices are whole numbers, and an integer price
  domain keeps every concrete run kernel-computable).
* Rust `Option<T>::or`, and `max`/`min` on `Option<Date>` (where `None` is
  smallest), are embedded by `optOr`, `optMax`, `optMin`.
* panics are embedded as `Option.none` at the function result, or by a
  default value at a spot where an invariant proved in this file shows the
  panic branch unreachable (each such spot is commented).
* The repository mixes two revisions: `router.rs` stores `DateRange`
  (a pair of `SingleDateRange`) in `Destination.dates` and calls `.iter()`
  on the intersection, while the shared library's `iter` takes the shared
  `DateRestrictions`.  The embedding threads one shared `DateRestrictions`
  value (the spec's "shared (read-only) across the whole search" instance)
  into `iter`, which is the only well-typed composition of the two files.
-/

/-- `SingleDateRange` from `route-solver-shared/src/lib.rs`.  The Rust
`None` variant is used by the code both for "unconstrained" and for an
empty intersection. -/
inductive SingleDateRange where
  | none
  | fixedDate (d : Int)
  | dateRange (d1 d2 : Int)
deriving DecidableEq, Repr

/-- `DateRestrictions`: optional min/max day gaps (`Duration` as `Int`). -/
structure DateRestrictions where
  min_days : Option Int
  max_days : Option Int
deriving DecidableEq, Repr

/-- Rust `Option::or`. -/
def optOr (a b : Option Int) : Option Int :=
  match a with
  | some x => some x
  | Option.none => b

/-- Rust `max` on `Option<Date>` (`None` is least). -/
def optMax (a b : Option Int) : Option Int :=
  match a, b with
  | Option.none, b => b
  | some x, Option.none => some x
  | some x, some y => some (max x y)

/-- Rust `min` on `Option<Date>` (`None` is least). -/
def optMin (a b : Option Int) : Option Int :=
  match a, b with
  | Option.none, _ => Option.none
  | some _, Option.none => Option.none
  | some x, some y => some (min x y)

/-- `SingleDateRange::first_date`. -/
def SingleDateRange.first_date : SingleDateRange → Option Int
  | .none => Option.none
  | .fixedDate d => some d
  | .dateRange d1 _ => some d1

/-- `SingleDateRange::last_date`. -/
def SingleDateRange.last_date : SingleDateRange → Option Int
  | .none => Option.none
  | .fixedDate d => some d
  | .dateRange _ d2 => some d2

/-- `SingleDateRange::low_high`. -/
def SingleDateRange.low_high (r : SingleDateRange) : Option Int × Option Int :=
  (r.first_date, r.last_date)

/-- `SingleDateRange::fixify`. -/
def SingleDateRange.fixify : SingleDateRange → Option SingleDateRange
  | .fixedDate d => some (.dateRange d d)
  | .dateRange d1 d2 => some (.dateRange d1 d2)
  | .none => Option.none

/-- `SingleDateRange::intersect`.  Mirrors the source: each side's missing
bound is filled from the other side (`Option::or`), the result is `None`
when all bounds are missing or when the filled bounds cross, and a
degenerate overlap collapses to `FixedDate`. -/
def SingleDateRange.intersect (a b : SingleDateRange) : SingleDateRange :=
  let s0 := a.low_high
  let o0 := b.low_high
  let s_low := optOr s0.1 o0.1
  let o_low := optOr o0.1 s_low
  let s_high := optOr s0.2 o0.2
  let o_high := optOr o0.2 s_high
  match s_low, s_high, o_low, o_high with
  | some sl, some sh, some ol, some oh =>
    let lowest := max sl ol
    let high := min sh oh
    if high < lowest then .none
    else if lowest = high then .fixedDate lowest
    else .dateRange lowest high
  | _, _, _, _ => .none

/-- `SingleDateRange::truncate`: remove all days `≤ date`. -/
def SingleDateRange.truncate (r : SingleDateRange) (date : Int) : SingleDateRange :=
  match r with
  | .fixedDate d => if date < d then .fixedDate d else .none
  | .dateRange d1 d2 =>
    if date < d2 then .dateRange (max d1 (date + 1)) d2 else .none
  | .none => .none

/-- `SingleDateRangeIter` from `route-solver-shared/src/lib.rs`. -/
structure SingleDateRangeIter where
  date_range : SingleDateRange
  src_date : Option Int
  curr_date : Int
  day_count : Nat
  restrictions : DateRestrictions
deriving DecidableEq, Repr

/-- `SingleDateRange::iter_partial` (renamed here): build the iterator.
`start_date = max(src_date + min_days, first_date)`; the source's
`start_date.unwrap()` cannot fail in the `FixedDate`/`DateRange` arms
because `first_date` is `Some` there, so `getD` never supplies its
default; for the `None` range the source seeds `NaiveDate::MIN`, whose
value is irrelevant because `next` bails out on a `None` range. -/
def SingleDateRange.iterWithSrc (r : SingleDateRange) (restrictions : DateRestrictions)
    (src_date : Option Int) : SingleDateRangeIter :=
  let start_date :=
    optMax (src_date.map (fun d => d + restrictions.min_days.getD 0)) r.first_date
  match r with
  | .fixedDate d => ⟨r, src_date, start_date.getD d, 0, restrictions⟩
  | .dateRange d1 _ => ⟨r, src_date, start_date.getD d1, 0, restrictions⟩
  | .none => ⟨r, src_date, 0, 0, restrictions⟩

/-- `SingleDateRange::iter`: anchor the iterator at the range's own first
date. -/
def SingleDateRange.iter (r : SingleDateRange) (restrictions : DateRestrictions) :
    SingleDateRangeIter :=
  r.iterWithSrc restrictions r.first_date

/-- The max-day cutoff test from `Iterator::next`:
`max_days.zip(src_date).map(|(m, s)| m <= curr - s).unwrap_or(false)`. -/
def SingleDateRangeIter.maxHalts (it : SingleDateRangeIter) : Bool :=
  match it.restrictions.max_days, it.src_date with
  | some maxd, some src => decide (maxd ≤ it.curr_date - src)
  | _, _ => false

/-- One step of `impl Iterator for SingleDateRangeIter::next`. -/
def iterNext (it : SingleDateRangeIter) : Option (Int × SingleDateRangeIter) :=
  match it.date_range.fixify with
  | some (.dateRange _ end_date) =>
    if it.maxHalts then Option.none
    else if end_date < it.curr_date then Option.none
    else some (it.curr_date, { it with curr_date := it.curr_date + 1 })
  | _ => Option.none

/-- Run the iterator to a list, with explicit fuel. -/
def iterToListFuel : Nat → SingleDateRangeIter → List Int
  | 0, _ => []
  | fuel + 1, it =>
    match iterNext it with
    | Option.none => []
    | some (d, it') => d :: iterToListFuel fuel it'

/-- Enough fuel to exhaust the iterator: one unit per remaining day of the
range's span. -/
def iterFuel (it : SingleDateRangeIter) : Nat :=
  match it.date_range.fixify with
  | some (.dateRange _ e) => (e + 1 - it.curr_date).toNat
  | _ => 0

/-- The full, finite enumeration of the iterator (the sequence of `next`
results until `None`). -/
def iterToList (it : SingleDateRangeIter) : List Int :=
  iterToListFuel (iterFuel it) it

/-- `rangeListGo n x` is the ascending list `[x, x+1, …, x+n-1]`. -/
def rangeListGo : Nat → Int → List Int
  | 0, _ => []
  | n + 1, x => x :: rangeListGo n (x + 1)

/-- The ascending list of integers from `a` to `b` inclusive. -/
def rangeList (a b : Int) : List Int :=
  rangeListGo (b + 1 - a).toNat a

/-- Where the iterator actually stops: the range's high end, additionally
cut to `src + max_days - 1` when both a max restriction and a source date
are present. -/
def iterStop (it : SingleDateRangeIter) : Int :=
  match it.date_range.fixify with
  | some (.dateRange _ e) =>
    match it.restrictions.max_days, it.src_date with
    | some maxd, some src => min e (src + maxd - 1)
    | _, _ => e
  | _ => it.curr_date - 1

/-! ## Price oracle (`route-solver-backend/src/flight_api.rs`) -/

/-- `Flight`: the oracle cache key and search edge identity. -/
structure Flight where
  src : String
  dest : String
  date : Int
deriving DecidableEq, Repr

/-- `QueryError` (payloads that are foreign types are embedded as `String`
or dropped). -/
inductive QueryError where
  | noLegs
  | responseConversionErr (msg : String)
  | reqwestErr
  | responseUnexpectedFormatErr (msg : String)
  | rateLimitExceeded
  | badResponse (code : Nat)
  | nonExistentLeg
deriving DecidableEq, Repr

instance {e a : Type} [DecidableEq e] [DecidableEq a] : DecidableEq (Except e a) :=
  fun x y =>
    match x, y with
    | .ok u, .ok v => decidable_of_iff (u = v) (by simp)
    | .error u, .error v => decidable_of_iff (u = v) (by simp)
    | .ok _, .error _ => isFalse (by simp)
    | .error _, .ok _ => isFalse (by simp)

/-- `Quote`: minimum price and the non-stop flag. -/
structure Quote where
  min_price : Int
  direct : Bool
deriving DecidableEq, Repr

/-- The memo `db: HashMap<Flight, Quote>` of `SkyScannerApiQuery`,
embedded as an association list; `HashMap::get` is `dbLookup`. -/
def dbLookup (db : List (Flight × Quote)) (f : Flight) : Option Quote :=
  (db.find? (fun p => p.1 = f)).map (fun p => p.2)

/-- `SkyScannerApiQuery::get_price`.  The external round trip
(`get_indicative_prices_simplified_retry` followed by `[0]` indexing) is
abstracted as `ext : Nat → Flight → Except QueryError Quote`, indexed by a
global count `k` of external queries issued so far, so that the external
service may answer differently at different times.  Result:
`(returned value, new db, new count, whether an external query was issued)`. -/
def sky_get_price (ext : Nat → Flight → Except QueryError Quote)
    (db : List (Flight × Quote)) (k : Nat) (f : Flight) :
    Except QueryError Quote × List (Flight × Quote) × Nat × Bool :=
  match dbLookup db f with
  | some v => (.ok v, db, k, false)
  | Option.none =>
    match ext k f with
    | .error e => (.error e, db, k + 1, true)
    | .ok quote => (.ok quote, (f, quote) :: db, k + 1, true)

/-- How many external queries a sequence of `get_price` calls issues for
the flight `f`. -/
def sky_queries (ext : Nat → Flight → Except QueryError Quote)
    (db : List (Flight × Quote)) (k : Nat) (f : Flight) : List Flight → Nat
  | [] => 0
  | g :: rest =>
    let r := sky_get_price ext db k g
    (if g = f ∧ r.2.2.2 then 1 else 0) + sky_queries ext r.2.1 r.2.2.1 f rest

/-- The values a sequence of `get_price` calls returns for the flight `f`,
in call order. -/
def sky_results (ext : Nat → Flight → Except QueryError Quote)
    (db : List (Flight × Quote)) (k : Nat) (f : Flight) :
    List Flight → List (Except QueryError Quote)
  | [] => []
  | g :: rest =>
    let r := sky_get_price ext db k g
    (if g = f then [r.1] else []) ++ sky_results ext r.2.1 r.2.2.1 f rest

/-- `TestPriceApiQuery::get_price`: a fixture table lookup; a miss is the
`NonExistentLeg` error, and no state changes. -/
def test_get_price (data : List (Flight × Int)) (f : Flight) : Except QueryError Quote :=
  match (data.find? (fun p => p.1 = f)).map (fun p => p.2) with
  | some v => .ok ⟨v, false⟩
  | Option.none => .error QueryError.nonExistentLeg

/-- The fixed backoff of the retry loop, in milliseconds
(`Duration::from_millis(250)`). -/
def retryBackoffMs : Nat := 250

/-- `SkyScannerApiQuery::get_indicative_prices_simplified_retry`.
The successive results of the underlying
`get_indicative_prices_simplified` call are abstracted as
`resp : Nat → Except QueryError (List Quote)` (attempt `i` yields
`resp i`).  The loop retries exactly on `RateLimitExceeded`, sleeping
`retryBackoffMs` before each retry, and breaks with the response — `Ok` or
any other error — otherwise.  Fuel bounds the number of attempts the model
is allowed to watch; `none` means the loop was still retrying.  Returns
the final response, the index of the attempt that produced it, and the
list of sleeps performed. -/
def retryRun (resp : Nat → Except QueryError (List Quote)) :
    Nat → Nat → Option (Except QueryError (List Quote) × Nat × List Nat)
  | 0, _ => Option.none
  | fuel + 1, i =>
    match resp i with
    | .error QueryError.rateLimitExceeded =>
      (retryRun resp fuel (i + 1)).map (fun r => (r.1, r.2.1, retryBackoffMs :: r.2.2))
    | r => some (r, i, [])

/-! ## Router (`route-solver-backend/src/router.rs`) -/

/-- The shared `DateRange(pub SingleDateRange, pub SingleDateRange)` pair:
`fst` is the inbound window (`.0`), `snd` the outbound window (`.1`). -/
structure DateRangePair where
  fst : SingleDateRange
  snd : SingleDateRange
deriving DecidableEq, Repr

/-- `Destination`: an IATA code plus its date windows. -/
structure Destination where
  iata : String
  dates : DateRangePair
deriving DecidableEq, Repr

/-- `FlightNode`: flight, leg price, cumulative price, parent link,
destination reference.  Prices are `Option` exactly as in the source. -/
inductive FlightNode where
  | mk (flight : Flight) (back_price : Option Int) (price : Option Int)
      (prev : Option FlightNode) (dest_ref : Destination)

/-- Decidable (structural) equality on `FlightNode`, following the parent
chain. -/
def FlightNode.deq : (a b : FlightNode) → Decidable (a = b)
  | .mk f1 b1 p1 Option.none d1, .mk f2 b2 p2 Option.none d2 =>
    decidable_of_iff (f1 = f2 ∧ b1 = b2 ∧ p1 = p2 ∧ d1 = d2) (by simp)
  | .mk f1 b1 p1 Option.none d1, .mk f2 b2 p2 (some y) d2 => isFalse (by simp)
  | .mk f1 b1 p1 (some x) d1, .mk f2 b2 p2 Option.none d2 => isFalse (by simp)
  | .mk f1 b1 p1 (some x) d1, .mk f2 b2 p2 (some y) d2 =>
    match FlightNode.deq x y with
    | isTrue h =>
      decidable_of_iff (f1 = f2 ∧ b1 = b2 ∧ p1 = p2 ∧ d1 = d2) (by subst h; simp)
    | isFalse h => isFalse (by simp; intro _ _ _ h2 _; exact h h2)

instance : DecidableEq FlightNode := FlightNode.deq

def FlightNode.flight : FlightNode → Flight
  | .mk f _ _ _ _ => f

def FlightNode.back_price : FlightNode → Option Int
  | .mk _ b _ _ _ => b

def FlightNode.price : FlightNode → Option Int
  | .mk _ _ p _ _ => p

def FlightNode.prev : FlightNode → Option FlightNode
  | .mk _ _ _ pr _ => pr

def FlightNode.dest_ref : FlightNode → Destination
  | .mk _ _ _ _ d => d

/-- `impl Ord for FlightNode::cmp`.  The comparison inverts the price
order (cheapest node = greatest), and the source panics when either
cumulative price is missing; the panic branch is embedded as
`Option.none`. -/
def cmpFlightNode (a b : FlightNode) : Option Ordering :=
  match a.back_price, b.back_price with
  | some s_p, some o_p =>
    some (if s_p < o_p then Ordering.gt else if o_p < s_p then Ordering.lt else Ordering.eq)
  | _, _ => Option.none

/-- The heap key of a node.  By the invariant proved for claim C10 every
queued node has `back_price = some _`, so the default never supplies a
value on reachable states. -/
def nodeKey (n : FlightNode) : Int :=
  n.back_price.getD 0

/-- `BinaryHeap::pop` through the inverted `Ord`: yields an element with
the least cumulative price and the rest of the frontier.  Ties are broken
towards the earlier list position (the Rust heap breaks ties arbitrarily;
every property proved below is insensitive to the choice). -/
def popMinQ : List FlightNode → Option (FlightNode × List FlightNode)
  | [] => Option.none
  | n :: rest =>
    match popMinQ rest with
    | Option.none => some (n, [])
    | some (m, rest') =>
      if nodeKey n ≤ nodeKey m then some (n, rest) else some (m, n :: rest')

/-- The IATA codes on a node's ancestor chain, the node's own flight
destination included — exactly the codes `fill_dest_list`'s
`filter_pred` rejects. -/
def chainDests : FlightNode → List String
  | .mk f _ _ Option.none _ => [f.dest]
  | .mk f _ _ (some p) _ => f.dest :: chainDests p

/-- `Router::backtrace_node`: the ancestor chain as a list, sentinel
(root) first. -/
def chainList : FlightNode → List FlightNode
  | .mk f b p Option.none d => [.mk f b p Option.none d]
  | .mk f b p (some pr) d => chainList pr ++ [.mk f b p (some pr) d]

/-- The filtering stage of `Router::fill_dest_list`: drop every
destination whose code equals the popped node's own destination or occurs
on its ancestor chain. -/
def filteredDests (curr_node : FlightNode) (init_dest_list : List Destination) :
    List Destination :=
  init_dest_list.filter (fun e => decide (e.iata ∉ chainDests curr_node))

/-- `Router::fill_dest_list`: the filtered intermediates, or the final
anchor alone once every intermediate is excluded. -/
def fill_dest_list (curr_node : FlightNode) (final_dest : Destination)
    (init_dest_list : List Destination) : List Destination :=
  let dest_list := filteredDests curr_node init_dest_list
  if dest_list.isEmpty then [final_dest] else dest_list

/-- The departure dates `expand_node` enumerates for a candidate
destination: `next_dest.dates.0.intersect(src.dest_ref.dates.1).iter()`
with the shared restrictions. -/
def candidateDates (restr : DateRestrictions) (next_dest prev_dest : Destination) :
    List Int :=
  iterToList ((next_dest.dates.fst.intersect prev_dest.dates.snd).iter restr)

/-- `Router::expand_node`.  The oracle is abstracted as a total price
function `api : Flight → Int` (the source unwraps the oracle result, so an
oracle error is a panic; the oracle's own error behavior is modelled
separately with `sky_get_price`).  Returns the children pushed onto the
frontier, in push order. -/
def expand_node (api : Flight → Int) (restr : DateRestrictions) (src : FlightNode)
    (remaining_dests : List Destination) : List FlightNode :=
  remaining_dests.flatMap (fun next_dest =>
    (candidateDates restr next_dest src.dest_ref).map (fun possible_date =>
      let flight : Flight := ⟨src.flight.dest, next_dest.iata, possible_date⟩
      let price_query := api flight
      FlightNode.mk flight (some (nodeKey src + price_query)) (some price_query)
        (some src) next_dest))

/-- The sentinel node seeding the frontier (`Date::new(0, 0, 0)` is
embedded as day `0`; its value is never read). -/
def sentinelNode (src : Destination) : FlightNode :=
  .mk ⟨"", src.iata, 0⟩ (some 0) (some 0) Option.none src

/-- The pop/expand loop of `Router::perform_graph_search`, with fuel.
`none` = fuel exhausted (model artifact), `some (Except.error _)` = the
frontier emptied, `some (Except.ok g)` = `g` was popped with the final
anchor's code and a parent. -/
def searchLoop (api : Flight → Int) (restr : DateRestrictions) (final_dest : Destination)
    (init_dest_list : List Destination) : Nat → List FlightNode →
    Option (Except String FlightNode)
  | 0, _ => Option.none
  | fuel + 1, main_queue =>
    match popMinQ main_queue with
    | Option.none => some (Except.error "Itinerary cannot solve, adjust parameters")
    | some (top_n, rest) =>
      if top_n.flight.dest = final_dest.iata ∧ (top_n.prev).isSome then
        some (Except.ok top_n)
      else
        searchLoop api restr final_dest init_dest_list fuel
          (rest ++ expand_node api restr top_n (fill_dest_list top_n final_dest init_dest_list))

/-- The successive frontier states of the loop (first state included),
used to state that the `cmp` panic is unreachable. -/
def searchTrace (api : Flight → Int) (restr : DateRestrictions) (final_dest : Destination)
    (init_dest_list : List Destination) : Nat → List FlightNode → List (List FlightNode)
  | 0, main_queue => [main_queue]
  | fuel + 1, main_queue =>
    main_queue ::
      match popMinQ main_queue with
      | Option.none => []
      | some (top_n, rest) =>
        if top_n.flight.dest = final_dest.iata ∧ (top_n.prev).isSome then []
        else
          searchTrace api restr final_dest init_dest_list fuel
            (rest ++ expand_node api restr top_n (fill_dest_list top_n final_dest init_dest_list))

/-- `Router::perform_graph_search`: split the anchors off the destination
list, seed the frontier with the sentinel, run the loop, backtrace.
A destination list too short for the source's slice indexing (which would
panic) is embedded as `none`. -/
def perform_graph_search (api : Flight → Int) (restr : DateRestrictions)
    (dest_list : List Destination) (fuel : Nat) :
    Option (Except String (List FlightNode)) :=
  match dest_list with
  | [] => Option.none
  | [_] => Option.none
  | src :: d2 :: ds =>
    let final_dest := List.getLastD ds d2
    let init_dest_list := (d2 :: ds).dropLast
    match searchLoop api restr final_dest init_dest_list fuel [sentinelNode src] with
    | Option.none => Option.none
    | some (Except.error e) => some (Except.error e)
    | some (Except.ok final_node) => some (Except.ok (chainList final_node))

/-- `FlightPrice` from the shared library. -/
structure FlightPrice where
  flight : Flight
  price : Int
deriving DecidableEq, Repr

/-- `RouterResult`. -/
structure RouterResult where
  result : List FlightPrice
deriving DecidableEq, Repr

/-- `RouterResult::total_price`. -/
def RouterResult.total_price (r : RouterResult) : Int :=
  r.result.foldl (fun acc f => acc + f.price) 0

/-- `Router::calc`: run the search and unwrap.  The source's
`problem_res.unwrap()` panics when the search reports the infeasibility
error; that panic is embedded as the inner `none`.  The outer `none` is
fuel exhaustion. -/
def calcModel (api : Flight → Int) (restr : DateRestrictions)
    (dest_list : List Destination) (fuel : Nat) : Option (Option RouterResult) :=
  match perform_graph_search api restr dest_list fuel with
  | Option.none => Option.none
  | some (Except.error _) => some Option.none
  | some (Except.ok nodes) =>
    some (some ⟨(nodes.drop 1).map (fun f => ⟨f.flight, f.price.getD 0⟩)⟩)

/-- `iterStop` unpacked for a range whose `fixify` is a proper span. -/
def stopAux (e : Int) (maxd : Option Int) (src : Option Int) : Int :=
  match maxd, src with
  | some m, some s => min e (s + m - 1)
  | _, _ => e

/-- The first date the iterator will consider:
`max(src_date + min_days, first_date)` (the range's own low when no
source date is given). -/
def startAux (lo : Int) (mind : Option Int) (src : Option Int) : Int :=
  match src with
  | Option.none => lo
  | some s => max (s + mind.getD 0) lo

/-- Membership of a date in a range's span (`None` imposes no bound of
its own). -/
def inSpan : SingleDateRange → Int → Prop
  | .none, _ => True
  | .fixedDate x, d => d = x
  | .dateRange l h, d => l ≤ d ∧ d ≤ h

instance (r : SingleDateRange) (d : Int) : Decidable (inSpan r d) :=
  match r with
  | .none => isTrue trivial
  | .fixedDate x => inferInstanceAs (Decidable (d = x))
  | .dateRange l h => inferInstanceAs (Decidable (l ≤ d ∧ d ≤ h))

/-! ## Path semantics for the search -/

/-- The non-sentinel part of a node's ancestor chain, root-side first, as
(destination, departure date) steps. -/
def stepsOfNode : FlightNode → List (Destination × Int)
  | .mk _ _ _ Option.none _ => []
  | .mk f _ _ (some p) dr => stepsOfNode p ++ [(dr, f.date)]

/-- The destination reached after a sequence of steps (the anchor
destination when there are none). -/
def lastDestD (d0 : Destination) : List (Destination × Int) → Destination
  | [] => d0
  | (d, _) :: rest => lastDestD d rest

/-- The steps' dates are feasible: each departure date is among the dates
the expansion would enumerate for that hop. -/
def chainOk (restr : DateRestrictions) : Destination → List (Destination × Int) → Prop
  | _, [] => True
  | prev, (d, dt) :: rest =>
    dt ∈ candidateDates restr d prev ∧ chainOk restr d rest

/-- The flights flown along a sequence of steps starting at `prev`. -/
def legsOf (prev : Destination) : List (Destination × Int) → List Flight
  | [] => []
  | (d, dt) :: rest => ⟨prev.iata, d.iata, dt⟩ :: legsOf d rest

/-- Total price of a path. -/
def pathPrice (api : Flight → Int) (prev : Destination)
    (steps : List (Destination × Int)) : Int :=
  ((legsOf prev steps).map api).sum

/-- A valid itinerary for the router problem `(src, inter, final)`:
start at the origin anchor, visit every intermediate destination exactly
once in some order, end at the final anchor, each hop dated by a
feasible candidate date. -/
def ValidItin (restr : DateRestrictions) (src : Destination) (inter : List Destination)
    (final : Destination) (steps : List (Destination × Int)) : Prop :=
  ∃ pre dFin, steps = pre ++ [(final, dFin)] ∧
    (pre.map Prod.fst).Perm inter ∧ chainOk restr src steps

/-- The steps of a backtraced node list (sentinel dropped). -/
def stepsOfNodes (nodes : List FlightNode) : List (Destination × Int) :=
  (nodes.drop 1).map (fun n => (n.dest_ref, n.flight.date))

/-- The total price of a backtraced node list (sentinel dropped), as
`calc`'s `RouterResult` sums it. -/
def resultTotal (nodes : List FlightNode) : Int :=
  ((nodes.drop 1).map (fun n => (n.price).getD 0)).sum

/-- The invariant every node created by the search satisfies: the root is
the sentinel for `src`, and every non-root node was built by the
expansion step from its parent — its flight goes from the parent's
destination to its own `dest_ref` on an enumerated candidate date, its
prices are the oracle's answers accumulated along the chain, its
`dest_ref` came from `fill_dest_list` of the parent, and the parent was
not a goal node when it was expanded. -/
def NodeOK (api : Flight → Int) (restr : DateRestrictions) (src final : Destination)
    (inter : List Destination) : FlightNode → Prop
  | .mk f b p Option.none dr =>
    f = ⟨"", src.iata, 0⟩ ∧ b = some 0 ∧ p = some 0 ∧ dr = src
  | .mk f b p (some prev) dr =>
    NodeOK api restr src final inter prev ∧
    ((prev.prev).isSome → prev.flight.dest ≠ final.iata) ∧
    f.src = prev.flight.dest ∧ f.dest = dr.iata ∧
    f.date ∈ candidateDates restr dr prev.dest_ref ∧
    p = some (api f) ∧
    b = some (nodeKey prev + api f) ∧
    (dr ∈ filteredDests prev inter ∨ (filteredDests prev inter = [] ∧ dr = final))

/-- A node's chain realizes a prefix of the given step sequence. -/
def IsPref (n : FlightNode) (steps : List (Destination × Int)) : Prop :=
  stepsOfNode n = steps.take (stepsOfNode n).length

/-- A popped node sitting at code `AAA` on day 3, whose destination's
outbound window is `Span(1,10)`. -/
def c5Node : FlightNode :=
  .mk ⟨"XXX", "AAA", 3⟩ (some 0) (some 0) Option.none
    ⟨"AAA", ⟨SingleDateRange.none, SingleDateRange.dateRange 1 10⟩⟩

/-- A candidate destination with inbound window `Span(1,10)`. -/
def c5Dest : Destination := ⟨"BBB", ⟨SingleDateRange.dateRange 1 10, SingleDateRange.none⟩⟩

/-- The oracle used by the C1 counterexample: the final hop `→ BBB` costs
3 on day 2 and 10 otherwise; every other flight is free.  All prices are
non-negative, as the claim requires. -/
def c1Api : Flight → Int := fun fl =>
  if fl.dest = "BBB" ∧ fl.date = 2 then 3 else if fl.dest = "BBB" then 10 else 0

/-- Origin anchor `AAA`, departing day 1. -/
def c1Src : Destination := ⟨"AAA", ⟨SingleDateRange.none, .fixedDate 1⟩⟩

/-- An intermediate destination that shares the origin anchor's IATA
code. -/
def c1Dup : Destination := ⟨"AAA", ⟨.fixedDate 1, .fixedDate 2⟩⟩

/-- Final anchor `BBB`. -/
def c1Final : Destination := ⟨"BBB", ⟨.dateRange 1 5, SingleDateRange.none⟩⟩

/-- No day-gap restrictions. -/
def noRestr : DateRestrictions := ⟨Option.none, Option.none⟩

/-- Origin anchor for the infeasible problem: departs day 1. -/
def c2Src : Destination := ⟨"AAA", ⟨SingleDateRange.none, .fixedDate 1⟩⟩

/-- Final anchor whose inbound window (day 0) cannot meet the origin's
outbound window (day 1): the intersection is empty. -/
def c2Final : Destination := ⟨"BBB", ⟨.fixedDate 0, SingleDateRange.none⟩⟩

/-! ## Date-algebra lemmas -/

theorem mem_rangeListGo {n : Nat} : ∀ {x d : Int}, d ∈ rangeListGo n x ↔ x ≤ d ∧ d < x + n := by
  induction n with
  | zero =>
    intro x d
    constructor
    · intro hm; simp [rangeListGo] at hm
    · intro hc; exact absurd hc (by omega)
  | succ n ih =>
    intro x d
    simp only [rangeListGo, List.mem_cons, ih]
    omega

theorem rangeListGo_pairwise {n : Nat} : ∀ {x : Int}, (rangeListGo n x).Pairwise (· < ·) := by
  induction n with
  | zero => intro x; simp [rangeListGo]
  | succ n ih =>
    intro x
    refine List.Pairwise.cons ?_ ih
    intro y hy
    have := mem_rangeListGo.mp hy
    omega

theorem rangeList_eq_nil {a b : Int} (h : b < a) : rangeList a b = [] := by
  unfold rangeList
  have : (b + 1 - a).toNat = 0 := by omega
  rw [this]
  rfl

theorem rangeList_cons {a b : Int} (h : a ≤ b) :
    rangeList a b = a :: rangeList (a + 1) b := by
  unfold rangeList
  have h1 : (b + 1 - a).toNat = (b + 1 - (a + 1)).toNat + 1 := by omega
  rw [h1]
  rfl

theorem mem_rangeList {a b d : Int} : d ∈ rangeList a b ↔ a ≤ d ∧ d ≤ b := by
  unfold rangeList
  rw [mem_rangeListGo]
  omega

theorem rangeList_pairwise {a b : Int} : (rangeList a b).Pairwise (· < ·) :=
  rangeListGo_pairwise

/-- Core characterization of the iterator on a proper span: with enough
fuel it enumerates exactly the interval from its current date to the
range's end, cut by the max-day restriction when one applies. -/
theorem iterGo :
    ∀ (fuel : Nat) (lo e : Int) (dr : SingleDateRange)
      (src : Option Int) (curr : Int) (dc : Nat) (restr : DateRestrictions),
      dr.fixify = some (.dateRange lo e) →
      (e + 1 - curr).toNat ≤ fuel →
      iterToListFuel fuel ⟨dr, src, curr, dc, restr⟩ =
        rangeList curr (stopAux e restr.max_days src) := by
  intro fuel
  induction fuel with
  | zero =>
    intro lo e dr src curr dc restr hdr h
    refine (rangeList_eq_nil ?_).symm
    unfold stopAux
    rcases restr with ⟨mind, maxd⟩
    rcases maxd with _ | m <;> rcases src with _ | s <;> simp <;> omega
  | succ fuel ih =>
    intro lo e dr src curr dc restr hdr h
    have hnext : iterNext ⟨dr, src, curr, dc, restr⟩ =
        (if (SingleDateRangeIter.maxHalts ⟨dr, src, curr, dc, restr⟩) then Option.none
         else if e < curr then Option.none
         else some (curr, ⟨dr, src, curr + 1, dc, restr⟩)) := by
      unfold iterNext
      rw [show (⟨dr, src, curr, dc, restr⟩ : SingleDateRangeIter).date_range = dr from rfl, hdr]
    by_cases hmax : SingleDateRangeIter.maxHalts ⟨dr, src, curr, dc, restr⟩
    · rw [show iterToListFuel (fuel + 1) ⟨dr, src, curr, dc, restr⟩ =
          (match iterNext ⟨dr, src, curr, dc, restr⟩ with
           | Option.none => []
           | some (d, it') => d :: iterToListFuel fuel it') from rfl,
        hnext, if_pos hmax]
      refine (rangeList_eq_nil ?_).symm
      unfold SingleDateRangeIter.maxHalts at hmax
      unfold stopAux
      rcases restr with ⟨mind, maxd⟩
      rcases maxd with _ | m <;> rcases src with _ | s <;> simp_all <;> omega
    · rw [show iterToListFuel (fuel + 1) ⟨dr, src, curr, dc, restr⟩ =
          (match iterNext ⟨dr, src, curr, dc, restr⟩ with
           | Option.none => []
           | some (d, it') => d :: iterToListFuel fuel it') from rfl,
        hnext, if_neg hmax]
      by_cases hend : e < curr
      · rw [if_pos hend]
        refine (rangeList_eq_nil ?_).symm
        unfold stopAux
        rcases restr with ⟨mind, maxd⟩
        rcases maxd with _ | m <;> rcases src with _ | s <;> simp <;> omega
      · rw [if_neg hend]
        have hcurr : curr ≤ stopAux e restr.max_days src := by
          unfold SingleDateRangeIter.maxHalts at hmax
          unfold stopAux
          rcases restr with ⟨mind, maxd⟩
          rcases maxd with _ | m <;> rcases src with _ | s <;> simp_all <;> omega
        show curr :: iterToListFuel fuel ⟨dr, src, curr + 1, dc, restr⟩ =
          rangeList curr (stopAux e restr.max_days src)
        rw [ih lo e dr src (curr + 1) dc restr hdr (by omega), rangeList_cons hcurr]

/-- The full enumeration of any iterator state over a proper span. -/
theorem iterToList_span (lo e : Int) (dr : SingleDateRange) (src : Option Int)
    (curr : Int) (dc : Nat) (restr : DateRestrictions)
    (hdr : dr.fixify = some (.dateRange lo e)) :
    iterToList ⟨dr, src, curr, dc, restr⟩ = rangeList curr (stopAux e restr.max_days src) := by
  unfold iterToList
  refine iterGo _ lo e dr src curr dc restr hdr ?_
  unfold iterFuel
  rw [show (⟨dr, src, curr, dc, restr⟩ : SingleDateRangeIter).date_range = dr from rfl, hdr]

/-- The iterator of the `None` range is empty. -/
theorem iterToList_none (src : Option Int) (curr : Int) (dc : Nat)
    (restr : DateRestrictions) :
    iterToList ⟨SingleDateRange.none, src, curr, dc, restr⟩ = [] := rfl

/-- Closed form of the enumeration produced by `iterWithSrc`. -/
theorem iterToList_iterWithSrc (r : SingleDateRange) (restr : DateRestrictions)
    (src : Option Int) :
    iterToList (r.iterWithSrc restr src) =
      (match r with
       | .none => []
       | .fixedDate d =>
         rangeList (startAux d restr.min_days src) (stopAux d restr.max_days src)
       | .dateRange lo hi =>
         rangeList (startAux lo restr.min_days src) (stopAux hi restr.max_days src)) := by
  cases r with
  | none => rfl
  | fixedDate d =>
    show iterToList ⟨.fixedDate d, src,
      (optMax (src.map (fun x => x + restr.min_days.getD 0)) (some d)).getD d, 0, restr⟩ = _
    rw [iterToList_span d d (.fixedDate d) src _ 0 restr rfl]
    rcases src with _ | s
    · rfl
    · rfl
  | dateRange lo hi =>
    show iterToList ⟨.dateRange lo hi, src,
      (optMax (src.map (fun x => x + restr.min_days.getD 0)) (some lo)).getD lo, 0, restr⟩ = _
    rw [iterToList_span lo hi (.dateRange lo hi) src _ 0 restr rfl]
    rcases src with _ | s
    · rfl
    · rfl

/-- Membership in the enumeration, in terms of the range's (fixified)
bounds, the source-anchored minimum floor, and the strict max-day
cutoff. -/
theorem mem_iterWithSrc {r : SingleDateRange} {restr : DateRestrictions}
    {src : Option Int} {d : Int} :
    d ∈ iterToList (r.iterWithSrc restr src) ↔
      ∃ lo hi, r.fixify = some (.dateRange lo hi) ∧ lo ≤ d ∧ d ≤ hi ∧
        (∀ s ∈ src, s + restr.min_days.getD 0 ≤ d) ∧
        (∀ m ∈ restr.max_days, ∀ s ∈ src, d - s < m) := by
  rw [iterToList_iterWithSrc]
  cases r with
  | none => simp [SingleDateRange.fixify]
  | fixedDate d0 =>
    simp only [mem_rangeList, SingleDateRange.fixify, Option.some.injEq,
      SingleDateRange.dateRange.injEq]
    constructor
    · rintro ⟨h1, h2⟩
      refine ⟨d0, d0, ⟨rfl, rfl⟩, ?_⟩
      unfold startAux at h1
      unfold stopAux at h2
      rcases src with _ | s <;> rcases hm : restr.max_days with _ | m <;>
        simp_all <;> omega
    · rintro ⟨lo, hi, ⟨rfl, rfl⟩, h1, h2, h3, h4⟩
      unfold startAux
      unfold stopAux
      rcases src with _ | s <;> rcases hm : restr.max_days with _ | m <;>
        simp_all <;> omega
  | dateRange lo0 hi0 =>
    simp only [mem_rangeList, SingleDateRange.fixify, Option.some.injEq,
      SingleDateRange.dateRange.injEq]
    constructor
    · rintro ⟨h1, h2⟩
      refine ⟨lo0, hi0, ⟨rfl, rfl⟩, ?_⟩
      unfold startAux at h1
      unfold stopAux at h2
      rcases src with _ | s <;> rcases hm : restr.max_days with _ | m <;>
        simp_all <;> omega
    · rintro ⟨lo, hi, ⟨rfl, rfl⟩, h1, h2, h3, h4⟩
      unfold startAux
      unfold stopAux
      rcases src with _ | s <;> rcases hm : restr.max_days with _ | m <;>
        simp_all <;> omega

/-- The enumeration is strictly ascending. -/
theorem iterWithSrc_pairwise (r : SingleDateRange) (restr : DateRestrictions)
    (src : Option Int) :
    (iterToList (r.iterWithSrc restr src)).Pairwise (· < ·) := by
  rw [iterToList_iterWithSrc]
  cases r with
  | none => exact List.Pairwise.nil
  | fixedDate d => exact rangeList_pairwise
  | dateRange lo hi => exact rangeList_pairwise

theorem intersect_comm (a b : SingleDateRange) : a.intersect b = b.intersect a := by
  cases a <;> cases b <;>
    simp only [SingleDateRange.intersect, SingleDateRange.low_high,
      SingleDateRange.first_date, SingleDateRange.last_date, optOr] <;>
    simp [max_comm, min_comm]

theorem inSpan_intersect {a b : SingleDateRange} {d : Int}
    (hne : a.intersect b ≠ .none) (hd : inSpan (a.intersect b) d) :
    inSpan a d ∧ inSpan b d := by
  cases a <;> cases b <;>
    simp only [SingleDateRange.intersect, SingleDateRange.low_high,
      SingleDateRange.first_date, SingleDateRange.last_date, optOr] at hne hd <;>
    first
      | exact absurd rfl hne
      | (split_ifs at hne hd <;> simp_all [inSpan] <;> omega)

/-- `first_date` of a range whose `fixify` is a proper span is that
span's low end. -/
theorem first_date_of_fixify {r : SingleDateRange} {lo hi : Int}
    (h : r.fixify = some (.dateRange lo hi)) : r.first_date = some lo := by
  cases r <;> simp_all [SingleDateRange.fixify, SingleDateRange.first_date]

/-- Membership in `candidateDates`: the enumeration of the intersection,
anchored at the intersection's own first date. -/
theorem mem_candidateDates {restr : DateRestrictions} {next_dest prev_dest : Destination}
    {d : Int} :
    d ∈ candidateDates restr next_dest prev_dest ↔
      ∃ lo hi,
        (next_dest.dates.fst.intersect prev_dest.dates.snd).fixify =
          some (.dateRange lo hi) ∧
        lo ≤ d ∧ d ≤ hi ∧ lo + restr.min_days.getD 0 ≤ d ∧
        (∀ m ∈ restr.max_days, d - lo < m) := by
  unfold candidateDates SingleDateRange.iter
  rw [mem_iterWithSrc]
  constructor
  · rintro ⟨lo, hi, hfix, h1, h2, h3, h4⟩
    have hfd := first_date_of_fixify hfix
    refine ⟨lo, hi, hfix, h1, h2, ?_, ?_⟩
    · exact h3 lo (by rw [hfd]; rfl)
    · intro m hm
      exact h4 m hm lo (by rw [hfd]; rfl)
  · rintro ⟨lo, hi, hfix, h1, h2, h3, h4⟩
    have hfd := first_date_of_fixify hfix
    refine ⟨lo, hi, hfix, h1, h2, ?_, ?_⟩
    · intro s hs
      rw [hfd] at hs
      cases hs
      exact h3
    · intro m hm s hs
      rw [hfd] at hs
      cases hs
      exact h4 m hm

/-- Membership in the children pushed by `expand_node`. -/
theorem mem_expand_node {api : Flight → Int} {restr : DateRestrictions}
    {srcN : FlightNode} {dests : List Destination} {c : FlightNode} :
    c ∈ expand_node api restr srcN dests ↔
      ∃ nd ∈ dests, ∃ d ∈ candidateDates restr nd srcN.dest_ref,
        c = FlightNode.mk ⟨srcN.flight.dest, nd.iata, d⟩
              (some (nodeKey srcN + api ⟨srcN.flight.dest, nd.iata, d⟩))
              (some (api ⟨srcN.flight.dest, nd.iata, d⟩)) (some srcN) nd := by
  unfold expand_node
  rw [List.mem_flatMap]
  constructor
  · rintro ⟨nd, hnd, hc⟩
    rw [List.mem_map] at hc
    obtain ⟨d, hd, hc⟩ := hc
    exact ⟨nd, hnd, d, hd, hc.symm⟩
  · rintro ⟨nd, hnd, d, hd, hc⟩
    refine ⟨nd, hnd, ?_⟩
    rw [List.mem_map]
    exact ⟨d, hd, hc.symm⟩

theorem rangeList_self (d : Int) : rangeList d d = [d] := by
  rw [rangeList_cons le_rfl, rangeList_eq_nil (by omega)]

/-! ## Claim C6 -/

/-- C6: for all pairs of `SingleDateRange`, `intersect` is commutative,
and whenever the result is non-empty every date in the result's span lies
inside both operands' spans (a `None`/unconstrained side imposing no bound
of its own). -/
theorem C6_intersect_comm_and_subset :
    (∀ a b : SingleDateRange, a.intersect b = b.intersect a) ∧
    (∀ (a b : SingleDateRange) (d : Int), a.intersect b ≠ SingleDateRange.none →
      inSpan (a.intersect b) d → inSpan a d ∧ inSpan b d) :=
  ⟨intersect_comm, fun _ _ _ hne hd => inSpan_intersect hne hd⟩

/-- Witness for C6 at concrete inputs. -/
theorem C6_witness :
    ((SingleDateRange.dateRange 1 5).intersect (.dateRange 3 9) =
      (SingleDateRange.dateRange 3 9).intersect (.dateRange 1 5)) ∧
    (inSpan (SingleDateRange.dateRange 1 5) 4 ∧ inSpan (SingleDateRange.dateRange 3 9) 4) :=
  ⟨C6_intersect_comm_and_subset.1 (.dateRange 1 5) (.dateRange 3 9),
    C6_intersect_comm_and_subset.2 (.dateRange 1 5) (.dateRange 3 9) 4
      (by decide) (by decide)⟩

/-! ## Claim C7 -/

/-- C7 counterexample: intersecting two disjoint spans yields
`SingleDateRange.none` — the very same variant that represents the
"Unconstrained" range (second conjunct: that variant is what an
unconstrained operand looks like, and it acts as the identity), so the
code has no `Empty` value distinguished from the `Unconstrained`
variant. -/
theorem C7_counterexample :
    (SingleDateRange.dateRange 1 2).intersect (.dateRange 5 6) = SingleDateRange.none ∧
    SingleDateRange.none.intersect (.dateRange 1 2) = SingleDateRange.dateRange 1 2 := by
  decide

/-- C7 (amended): `None` intersected with a range yields the other
operand's bounds (a degenerate span collapsing to `FixedDate`); two
disjoint spans yield `SingleDateRange.none`, which is the same variant the
code uses for "Unconstrained" (not a distinguished `Empty` value); a
single-day overlap collapses to `FixedDate`. -/
theorem C7_intersect_edge_cases :
    (∀ d : Int, SingleDateRange.none.intersect (.fixedDate d) = .fixedDate d) ∧
    (∀ l h : Int, l < h →
      SingleDateRange.none.intersect (.dateRange l h) = .dateRange l h) ∧
    (∀ l : Int, SingleDateRange.none.intersect (.dateRange l l) = .fixedDate l) ∧
    (∀ a b c e : Int, a ≤ b → c ≤ e → b < c →
      (SingleDateRange.dateRange a b).intersect (.dateRange c e) = SingleDateRange.none) ∧
    (∀ a b c e : Int, a ≤ b → c ≤ e → max a c = min b e →
      (SingleDateRange.dateRange a b).intersect (.dateRange c e) =
        .fixedDate (max a c)) := by
  refine ⟨?_, ?_, ?_, ?_, ?_⟩
  · intro d
    simp [SingleDateRange.intersect, SingleDateRange.low_high,
      SingleDateRange.first_date, SingleDateRange.last_date, optOr]
  · intro l h hlh
    simp only [SingleDateRange.intersect, SingleDateRange.low_high,
      SingleDateRange.first_date, SingleDateRange.last_date, optOr, max_self, min_self]
    split_ifs <;> first | rfl | omega
  · intro l
    simp only [SingleDateRange.intersect, SingleDateRange.low_high,
      SingleDateRange.first_date, SingleDateRange.last_date, optOr, max_self, min_self]
    split_ifs <;> first | rfl | omega
  · intro a b c e hab hce hbc
    simp only [SingleDateRange.intersect, SingleDateRange.low_high,
      SingleDateRange.first_date, SingleDateRange.last_date, optOr]
    split_ifs <;> first | rfl | omega
  · intro a b c e hab hce hmx
    simp only [SingleDateRange.intersect, SingleDateRange.low_high,
      SingleDateRange.first_date, SingleDateRange.last_date, optOr]
    rw [hmx]
    split_ifs with h1 h2
    · exact absurd h1 (lt_irrefl _)
    · rfl
    · exact absurd rfl h2

/-- Witness for C7 at concrete inputs. -/
theorem C7_witness :
    ((1:Int) ≤ 4 ∧ (4:Int) ≤ 6 ∧ (4:Int) < 4 + 1) ∧
    (SingleDateRange.dateRange 1 4).intersect (.dateRange 5 6) = SingleDateRange.none :=
  ⟨⟨by decide, by decide, by decide⟩,
    C7_intersect_edge_cases.2.2.2.1 1 4 5 6 (by decide) (by decide) (by decide)⟩

/-! ## Claim C8 -/

/-- C8 counterexample.  The claim's description of the enumerated set is
wrong on two counts at these inputs: with a source date present but *no*
minimum restriction, day `1` lies in `Span(1,10)` yet is not enumerated
(the source date itself floors the enumeration); and with `min 2 / max 4`
anchored at source day `3`, day `7 = 3 + 4` ("not exceeding
`src + max_days`") is in the span yet not enumerated (the cutoff is
strict). -/
theorem C8_counterexample :
    ((1:Int) ∉ iterToList
        ((SingleDateRange.dateRange 1 10).iterWithSrc ⟨Option.none, Option.none⟩ (some 5))) ∧
    ((1:Int) ≤ 1 ∧ (1:Int) ≤ 10) ∧
    ((7:Int) ∉ iterToList
        ((SingleDateRange.dateRange 3 10).iterWithSrc ⟨some 2, some 4⟩ (some 3))) ∧
    ((3:Int) ≤ 7 ∧ (7:Int) ≤ 10 ∧ (3:Int) + 2 ≤ 7 ∧ (7:Int) ≤ 3 + 4) := by
  decide

/-- C8 (amended): the enumeration is finite (it is a list), strictly
ascending, and consists exactly of the dates `d` inside the (fixified)
span with `src + min_days ≤ d` whenever a source date is present (the
minimum defaulting to `0`, so the source date itself floors the
enumeration even without a minimum restriction) and `d - src < max_days`
(strict) whenever both a maximum restriction and a source date are
present; in particular `FixedDate d` with no restrictions enumerates
`[d]` and `Span(a,b)` enumerates `a..b` ascending. -/
theorem C8_enumeration_amended :
    ∀ (r : SingleDateRange) (restr : DateRestrictions) (src : Option Int),
      (iterToList (r.iterWithSrc restr src)).Pairwise (· < ·) ∧
      (∀ d : Int, d ∈ iterToList (r.iterWithSrc restr src) ↔
        ∃ lo hi, r.fixify = some (.dateRange lo hi) ∧ lo ≤ d ∧ d ≤ hi ∧
          (∀ s ∈ src, s + restr.min_days.getD 0 ≤ d) ∧
          (∀ m ∈ restr.max_days, ∀ s ∈ src, d - s < m)) ∧
      (∀ d : Int,
        iterToList ((SingleDateRange.fixedDate d).iter ⟨Option.none, Option.none⟩) = [d]) ∧
      (∀ a b : Int, a ≤ b →
        iterToList ((SingleDateRange.dateRange a b).iter ⟨Option.none, Option.none⟩) =
          rangeList a b) := by
  intro r restr src
  refine ⟨iterWithSrc_pairwise r restr src, fun d => mem_iterWithSrc, ?_, ?_⟩
  · intro d
    unfold SingleDateRange.iter
    rw [iterToList_iterWithSrc]
    show rangeList (startAux d Option.none (some d)) (stopAux d Option.none (some d)) = [d]
    unfold startAux stopAux
    simp only [Option.getD_none, add_zero, max_self]
    exact rangeList_self d
  · intro a b hab
    unfold SingleDateRange.iter
    rw [iterToList_iterWithSrc]
    show rangeList (startAux a Option.none (some a)) (stopAux b Option.none (some a)) =
      rangeList a b
    unfold startAux stopAux
    simp only [Option.getD_none, add_zero, max_self]

/-- Witness for C8 at concrete inputs. -/
theorem C8_witness :
    ((1:Int) ≤ 3) ∧
    iterToList ((SingleDateRange.dateRange 1 3).iter ⟨Option.none, Option.none⟩) =
      rangeList 1 3 :=
  ⟨by decide,
    (C8_enumeration_amended (.dateRange 1 3) ⟨Option.none, Option.none⟩ Option.none).2.2.2
      1 3 (by decide)⟩

/-! ## Claim C5 -/

/-- C5 counterexample: with `min_days = 5` and the popped node's own date
being day 3, the claim demands every enumerated candidate date to be
`≥ 3 + 5 = 8`; but the expansion enumerates from day 6 (the restrictions
are anchored at the *intersected range's* first date, day 1, not at the
popped node's date). -/
theorem C5_counterexample :
    ¬ (∀ c ∈ expand_node (fun _ => (1:Int)) ⟨some 5, Option.none⟩ c5Node [c5Dest],
        c5Node.flight.date + 5 ≤ c.flight.date) := by
  decide

/-- C5 (amended): the candidate departure dates for each candidate
destination are the enumeration of the intersection of that destination's
inbound window with the popped node's destination's outbound window,
with the shared min/max restrictions anchored at the *intersection's own
first date* `lo` (not at the popped node's date, which plays no role):
every enumerated date `d` satisfies `lo + min_days ≤ d` (the minimum
defaulting to 0) and `d - lo < max_days` when a maximum is set. -/
theorem C5_expansion_dates_amended :
    ∀ (api : Flight → Int) (restr : DateRestrictions) (srcN : FlightNode)
      (dests : List Destination) (c : FlightNode),
      c ∈ expand_node api restr srcN dests →
      ∃ nd ∈ dests, c.dest_ref = nd ∧
        c.flight.date ∈ candidateDates restr nd srcN.dest_ref ∧
        ∃ lo hi,
          (nd.dates.fst.intersect srcN.dest_ref.dates.snd).fixify =
            some (.dateRange lo hi) ∧
          lo ≤ c.flight.date ∧ c.flight.date ≤ hi ∧
          lo + restr.min_days.getD 0 ≤ c.flight.date ∧
          (∀ m ∈ restr.max_days, c.flight.date - lo < m) := by
  intro api restr srcN dests c hc
  rw [mem_expand_node] at hc
  obtain ⟨nd, hnd, d, hd, rfl⟩ := hc
  refine ⟨nd, hnd, rfl, ?_, ?_⟩
  · exact hd
  · rw [mem_candidateDates] at hd
    obtain ⟨lo, hi, hfix, h1, h2, h3, h4⟩ := hd
    exact ⟨lo, hi, hfix, h1, h2, h3, h4⟩

/-- Witness for C5: the expansion above does produce the child dated day
6, and the amended bounds hold for it. -/
theorem C5_witness :
    ∃ nd ∈ [c5Dest],
      (FlightNode.mk ⟨"AAA", "BBB", 6⟩ (some 1) (some 1) (some c5Node) c5Dest).dest_ref = nd ∧
      (FlightNode.mk ⟨"AAA", "BBB", 6⟩ (some 1) (some 1)
          (some c5Node) c5Dest).flight.date ∈
        candidateDates ⟨some 5, Option.none⟩ nd c5Node.dest_ref ∧
      ∃ lo hi,
        (nd.dates.fst.intersect c5Node.dest_ref.dates.snd).fixify =
          some (.dateRange lo hi) ∧
        lo ≤ 6 ∧ (6:Int) ≤ hi ∧
        lo + (DateRestrictions.mk (some 5) Option.none).min_days.getD 0 ≤ 6 ∧
        (∀ m ∈ (DateRestrictions.mk (some 5) Option.none).max_days, (6:Int) - lo < m) :=
  C5_expansion_dates_amended (fun _ => (1:Int)) ⟨some 5, Option.none⟩ c5Node [c5Dest]
    (FlightNode.mk ⟨"AAA", "BBB", 6⟩ (some 1) (some 1) (some c5Node) c5Dest) (by decide)

/-! ## Claim C3 -/

theorem dbLookup_cons (g : Flight) (q : Quote) (db : List (Flight × Quote)) (f : Flight) :
    dbLookup ((g, q) :: db) f = if g = f then some q else dbLookup db f := by
  unfold dbLookup
  rw [List.find?]
  by_cases h : g = f
  · simp [h]
  · simp [h]

/-- Once the cache holds a quote for `f`, no call ever queries for `f`
again and every call for `f` returns the cached quote. -/
theorem sky_hit (f : Flight) (q : Quote) :
    ∀ (calls : List Flight) (ext : Nat → Flight → Except QueryError Quote)
      (db : List (Flight × Quote)) (k : Nat),
      dbLookup db f = some q →
      sky_queries ext db k f calls = 0 ∧
        ∀ r ∈ sky_results ext db k f calls, r = .ok q := by
  intro calls
  induction calls with
  | nil => intro ext db k hdb; exact ⟨rfl, by intro r hr; cases hr⟩
  | cons g rest ih =>
    intro ext db k hdb
    unfold sky_queries sky_results sky_get_price
    match hg : dbLookup db g with
    | some v =>
      simp only [hg]
      by_cases hgf : g = f
      · subst hgf
        rw [hdb] at hg
        cases hg
        have := ih ext db k hdb
        refine ⟨by simp [this.1], ?_⟩
        intro r hr
        simp at hr
        rcases hr with rfl | hr
        · rfl
        · exact this.2 r hr
      · have := ih ext db k hdb
        refine ⟨by simp [hgf, this.1], ?_⟩
        intro r hr
        simp only [if_neg hgf, List.nil_append] at hr
        exact this.2 r hr
    | Option.none =>
      have hgf : g ≠ f := by
        intro hgf
        rw [hgf, hdb] at hg
        cases hg
      simp only [hg]
      match hext : ext k g with
      | .error e =>
        simp only [hext]
        have := ih ext db (k + 1) hdb
        refine ⟨by simp [hgf, this.1], ?_⟩
        intro r hr
        simp only [if_neg hgf, List.nil_append] at hr
        exact this.2 r hr
      | .ok q' =>
        simp only [hext]
        have hdb' : dbLookup ((g, q') :: db) f = some q := by
          rw [dbLookup_cons, if_neg hgf, hdb]
        have := ih ext ((g, q') :: db) (k + 1) hdb'
        refine ⟨by simp [hgf, this.1], ?_⟩
        intro r hr
        simp only [if_neg hgf, List.nil_append] at hr
        exact this.2 r hr

/-- Starting from a cache with no entry for `f`, and provided the
external service answers `f` successfully, at most one external query is
issued for `f` and all calls for `f` agree on one quote. -/
theorem sky_miss (f : Flight) :
    ∀ (calls : List Flight) (ext : Nat → Flight → Except QueryError Quote)
      (db : List (Flight × Quote)) (k : Nat),
      (∀ k', (ext k' f).isOk = true) →
      dbLookup db f = Option.none →
      sky_queries ext db k f calls ≤ 1 ∧
        ∃ q, ∀ r ∈ sky_results ext db k f calls, r = .ok q := by
  intro calls
  induction calls with
  | nil =>
    intro ext db k hok hdb
    exact ⟨by simp [sky_queries], ⟨⟨0, false⟩, by intro r hr; cases hr⟩⟩
  | cons g rest ih =>
    intro ext db k hok hdb
    unfold sky_queries sky_results sky_get_price
    match hg : dbLookup db g with
    | some v =>
      have hgf : g ≠ f := by
        intro hgf
        rw [hgf, hdb] at hg
        cases hg
      simp only [hg]
      obtain ⟨h1, q, h2⟩ := ih ext db k hok hdb
      refine ⟨by simp [hgf, h1], q, ?_⟩
      intro r hr
      simp only [if_neg hgf, List.nil_append] at hr
      exact h2 r hr
    | Option.none =>
      simp only [hg]
      match hext : ext k g with
      | .error e =>
        have hgf : g ≠ f := by
          intro hgf
          have := hok k
          rw [hgf] at hext
          rw [hext] at this
          simp [Except.isOk, Except.toBool] at this
        simp only [hext]
        obtain ⟨h1, q, h2⟩ := ih ext db (k + 1) hok hdb
        refine ⟨by simp [hgf, h1], q, ?_⟩
        intro r hr
        simp only [if_neg hgf, List.nil_append] at hr
        exact h2 r hr
      | .ok q' =>
        simp only [hext]
        by_cases hgf : g = f
        · subst hgf
          have hdb' : dbLookup ((g, q') :: db) g = some q' := by
            rw [dbLookup_cons, if_pos rfl]
          obtain ⟨h1, h2⟩ := sky_hit g q' rest ext ((g, q') :: db) (k + 1) hdb'
          refine ⟨by simp [h1], q', ?_⟩
          intro r hr
          simp at hr
          rcases hr with rfl | hr
          · rfl
          · exact h2 r hr
        · have hdb' : dbLookup ((g, q') :: db) f = Option.none := by
            rw [dbLookup_cons, if_neg hgf, hdb]
          obtain ⟨h1, q, h2⟩ := ih ext ((g, q') :: db) (k + 1) hok hdb'
          refine ⟨by simp [hgf, h1], q, ?_⟩
          intro r hr
          simp only [if_neg hgf, List.nil_append] at hr
          exact h2 r hr

/-- C3 counterexample: when the external service fails the request
(here: a 500), the failure is not cached, so two `get_price` calls with
the same `Flight` issue **two** external queries during the instance's
lifetime — refuting "at most one external query is ever issued per
flight". -/
theorem C3_counterexample :
    ¬ (sky_queries (fun _ _ => .error (QueryError.badResponse 500)) [] 0
        ⟨"AAA", "BBB", 1⟩ [⟨"AAA", "BBB", 1⟩, ⟨"AAA", "BBB", 1⟩] ≤ 1) := by
  decide

/-- C3 (amended): provided the external service answers flight `f`
successfully whenever asked, an oracle instance issues at most one
external query for `f` across any sequence of `get_price` calls, and all
calls for `f` return one and the same `Quote`; the fixture oracle issues
no external queries at all and is a pure lookup.  (When the single query
for `f` fails, nothing is cached and a later call re-issues the
query.) -/
theorem C3_oracle_cache_amended :
    ∀ (ext : Nat → Flight → Except QueryError Quote) (calls : List Flight) (f : Flight),
      (∀ k, (ext k f).isOk = true) →
      sky_queries ext [] 0 f calls ≤ 1 ∧
        ∃ q, ∀ r ∈ sky_results ext [] 0 f calls, r = .ok q := by
  intro ext calls f hok
  exact sky_miss f calls ext [] 0 hok rfl

/-- Witness for C3: two calls for the same flight against an
always-successful service. -/
theorem C3_witness :
    sky_queries (fun _ _ => .ok ⟨5, false⟩) [] 0 ⟨"AAA", "BBB", 1⟩
        [⟨"AAA", "BBB", 1⟩, ⟨"AAA", "BBB", 1⟩] ≤ 1 ∧
      ∃ q, ∀ r ∈ sky_results (fun _ _ => .ok ⟨5, false⟩) [] 0 ⟨"AAA", "BBB", 1⟩
        [⟨"AAA", "BBB", 1⟩, ⟨"AAA", "BBB", 1⟩], r = .ok q :=
  C3_oracle_cache_amended (fun _ _ => .ok ⟨5, false⟩)
    [⟨"AAA", "BBB", 1⟩, ⟨"AAA", "BBB", 1⟩] ⟨"AAA", "BBB", 1⟩ (fun _ => rfl)

/-! ## Claim C9 -/

/-- Characterization of the retry loop from an arbitrary attempt index:
whatever it returns is the first non-rate-limit response, every earlier
attempt was rate-limited, and one fixed 250 ms sleep was performed per
retry. -/
theorem retryGo (resp : Nat → Except QueryError (List Quote)) :
    ∀ (fuel i : Nat) (r : Except QueryError (List Quote)) (k : Nat) (delays : List Nat),
      retryRun resp fuel i = some (r, k, delays) →
      i ≤ k ∧ r = resp k ∧ r ≠ .error QueryError.rateLimitExceeded ∧
        (∀ j, i ≤ j → j < k → resp j = .error QueryError.rateLimitExceeded) ∧
        delays = List.replicate (k - i) retryBackoffMs := by
  intro fuel
  induction fuel with
  | zero => intro i r k delays h; cases h
  | succ fuel ih =>
    intro i r k delays h
    unfold retryRun at h
    match hr : resp i with
    | .error QueryError.rateLimitExceeded =>
      rw [hr] at h
      simp only [Option.map_eq_some'] at h
      obtain ⟨⟨r', k', delays'⟩, hrec, heq⟩ := h
      have heq' : (r', k', retryBackoffMs :: delays') = (r, k, delays) := heq
      obtain ⟨h1, h2, h3, h4, h5⟩ := ih (i + 1) r' k' delays' hrec
      cases heq'
      refine ⟨by omega, h2, h3, ?_, ?_⟩
      · intro j hij hjk
        rcases Nat.eq_or_lt_of_le hij with rfl | hij'
        · exact hr
        · exact h4 j hij' hjk
      · rw [h5, show k - i = (k - (i + 1)) + 1 by omega, List.replicate_succ]
    | .ok v =>
      rw [hr] at h
      cases h
      exact ⟨le_rfl, hr.symm, by simp, fun j h1 h2 => absurd h2 (by omega),
        by simp⟩
    | .error QueryError.noLegs =>
      rw [hr] at h
      cases h
      exact ⟨le_rfl, hr.symm, by simp, fun j h1 h2 => absurd h2 (by omega), by simp⟩
    | .error (QueryError.responseConversionErr m) =>
      rw [hr] at h
      cases h
      exact ⟨le_rfl, hr.symm, by simp, fun j h1 h2 => absurd h2 (by omega), by simp⟩
    | .error QueryError.reqwestErr =>
      rw [hr] at h
      cases h
      exact ⟨le_rfl, hr.symm, by simp, fun j h1 h2 => absurd h2 (by omega), by simp⟩
    | .error (QueryError.responseUnexpectedFormatErr m) =>
      rw [hr] at h
      cases h
      exact ⟨le_rfl, hr.symm, by simp, fun j h1 h2 => absurd h2 (by omega), by simp⟩
    | .error (QueryError.badResponse c) =>
      rw [hr] at h
      cases h
      exact ⟨le_rfl, hr.symm, by simp, fun j h1 h2 => absurd h2 (by omega), by simp⟩
    | .error QueryError.nonExistentLeg =>
      rw [hr] at h
      cases h
      exact ⟨le_rfl, hr.symm, by simp, fun j h1 h2 => absurd h2 (by omega), by simp⟩

/-- While every watched attempt is rate-limited the loop is still
retrying (has produced nothing). -/
theorem retryRun_all_limited (resp : Nat → Except QueryError (List Quote)) :
    ∀ (n i : Nat), (∀ j, i ≤ j → j < i + n → resp j = .error QueryError.rateLimitExceeded) →
      retryRun resp n i = Option.none := by
  intro n
  induction n with
  | zero => intro i h; rfl
  | succ n ih =>
    intro i h
    unfold retryRun
    rw [h i le_rfl (by omega)]
    rw [ih (i + 1) (fun j h1 h2 => h j (by omega) (by omega))]
    rfl

/-- C9: the retry loop never hands a rate-limit error to its caller: it
re-issues the same request, sleeping the fixed 250 ms backoff before each
retry, until a non-rate-limit result arrives — indefinitely, as long as
rate limits keep coming; any other outcome (success or any other error)
of the very first attempt is returned immediately with no retry. -/
theorem C9_retry_never_rate_limit :
    ∀ (resp : Nat → Except QueryError (List Quote)),
      (∀ (fuel : Nat) (r : Except QueryError (List Quote)) (k : Nat) (delays : List Nat),
        retryRun resp fuel 0 = some (r, k, delays) →
        r ≠ .error QueryError.rateLimitExceeded ∧
        r = resp k ∧
        (∀ j, j < k → resp j = .error QueryError.rateLimitExceeded) ∧
        delays = List.replicate k retryBackoffMs ∧
        (resp 0 ≠ .error QueryError.rateLimitExceeded → k = 0 ∧ r = resp 0)) ∧
      (∀ n : Nat, (∀ j, j < n → resp j = .error QueryError.rateLimitExceeded) →
        retryRun resp n 0 = Option.none) := by
  intro resp
  constructor
  · intro fuel r k delays h
    obtain ⟨h1, h2, h3, h4, h5⟩ := retryGo resp fuel 0 r k delays h
    refine ⟨h3, h2, fun j hj => h4 j (Nat.zero_le j) hj, by simpa using h5, ?_⟩
    intro h0
    have hk : k = 0 := by
      by_contra hk
      exact h0 (h4 0 le_rfl (by omega))
    exact ⟨hk, by rw [h2, hk]⟩
  · intro n h
    exact retryRun_all_limited resp n 0 (fun j h1 h2 => h j (by omega))

/-- Witness for C9: a service that rate-limits twice then succeeds. -/
theorem C9_witness :
    ((Except.ok [] : Except QueryError (List Quote)) ≠
        .error QueryError.rateLimitExceeded) ∧
    retryRun (fun i => if i < 2 then .error QueryError.rateLimitExceeded else .ok []) 2 0 =
      Option.none :=
  ⟨((C9_retry_never_rate_limit
        (fun i => if i < 2 then .error QueryError.rateLimitExceeded else .ok [])).1
      5 (.ok []) 2 [retryBackoffMs, retryBackoffMs] (by decide)).1,
    (C9_retry_never_rate_limit
        (fun i => if i < 2 then .error QueryError.rateLimitExceeded else .ok [])).2
      2 (by decide)⟩

/-! ## Frontier (heap) lemmas -/

@[simp] theorem FlightNode.flight_mk (f : Flight) (b p : Option Int)
    (pr : Option FlightNode) (d : Destination) : (FlightNode.mk f b p pr d).flight = f := rfl

@[simp] theorem FlightNode.back_price_mk (f : Flight) (b p : Option Int)
    (pr : Option FlightNode) (d : Destination) :
    (FlightNode.mk f b p pr d).back_price = b := rfl

@[simp] theorem FlightNode.price_mk (f : Flight) (b p : Option Int)
    (pr : Option FlightNode) (d : Destination) : (FlightNode.mk f b p pr d).price = p := rfl

@[simp] theorem FlightNode.prev_mk (f : Flight) (b p : Option Int)
    (pr : Option FlightNode) (d : Destination) : (FlightNode.mk f b p pr d).prev = pr := rfl

@[simp] theorem FlightNode.dest_ref_mk (f : Flight) (b p : Option Int)
    (pr : Option FlightNode) (d : Destination) : (FlightNode.mk f b p pr d).dest_ref = d := rfl

theorem popMinQ_eq_none {q : List FlightNode} : popMinQ q = Option.none ↔ q = [] := by
  cases q with
  | nil => simp [popMinQ]
  | cons n rest =>
    simp only [popMinQ]
    constructor
    · intro h
      match hr : popMinQ rest with
      | Option.none => rw [hr] at h; cases h
      | some (m, rest') =>
        rw [hr] at h
        by_cases hk : nodeKey n ≤ nodeKey m <;> simp [hk] at h
    · intro h; cases h

theorem popMinQ_perm : ∀ {q : List FlightNode} {m : FlightNode} {rest : List FlightNode},
    popMinQ q = some (m, rest) → q.Perm (m :: rest) := by
  intro q
  induction q with
  | nil => intro m rest h; cases h
  | cons n q' ih =>
    intro m rest h
    simp only [popMinQ] at h
    match hr : popMinQ q' with
    | Option.none =>
      rw [hr] at h
      cases h
      rw [popMinQ_eq_none.mp hr]
    | some (m', rest') =>
      rw [hr] at h
      dsimp only at h
      by_cases hk : nodeKey n ≤ nodeKey m'
      · rw [if_pos hk] at h
        cases h
        exact List.Perm.refl _
      · rw [if_neg hk] at h
        cases h
        have h1 : (n :: q').Perm (n :: m :: rest') := List.Perm.cons n (ih hr)
        have h2 : (n :: m :: rest').Perm (m :: n :: rest') := List.Perm.swap m n rest'
        exact h1.trans h2

theorem popMinQ_min : ∀ {q : List FlightNode} {m : FlightNode} {rest : List FlightNode},
    popMinQ q = some (m, rest) → ∀ x ∈ q, nodeKey m ≤ nodeKey x := by
  intro q
  induction q with
  | nil => intro m rest h; cases h
  | cons n q' ih =>
    intro m rest h x hx
    simp only [popMinQ] at h
    match hr : popMinQ q' with
    | Option.none =>
      rw [hr] at h
      cases h
      rcases List.mem_cons.mp hx with rfl | hx'
      · exact le_refl _
      · rw [popMinQ_eq_none.mp hr] at hx'
        cases hx'
    | some (m', rest') =>
      rw [hr] at h
      dsimp only at h
      by_cases hk : nodeKey n ≤ nodeKey m'
      · rw [if_pos hk] at h
        cases h
        rcases List.mem_cons.mp hx with rfl | hx'
        · exact le_refl _
        · exact le_trans hk (ih hr x hx')
      · rw [if_neg hk] at h
        cases h
        rcases List.mem_cons.mp hx with rfl | hx'
        · exact le_of_lt (lt_of_not_le hk)
        · exact ih hr x hx'

/-! ## Step-list lemmas -/

theorem stepsOfNode_eq_nil_iff (n : FlightNode) :
    stepsOfNode n = [] ↔ n.prev = Option.none := by
  match n with
  | .mk f b p Option.none dr => simp [stepsOfNode]
  | .mk f b p (some prev) dr => simp [stepsOfNode]

theorem lastDestD_append (d0 : Destination) :
    ∀ (s : List (Destination × Int)) (d : Destination) (dt : Int),
      lastDestD d0 (s ++ [(d, dt)]) = d := by
  intro s
  induction s generalizing d0 with
  | nil => intro d dt; rfl
  | cons x s' ih => intro d dt; exact ih x.1 d dt

theorem legsOf_append (d0 : Destination) :
    ∀ (s t : List (Destination × Int)),
      legsOf d0 (s ++ t) = legsOf d0 s ++ legsOf (lastDestD d0 s) t := by
  intro s
  induction s generalizing d0 with
  | nil => intro t; rfl
  | cons x s' ih =>
    intro t
    show (⟨d0.iata, x.1.iata, x.2⟩ : Flight) :: legsOf x.1 (s' ++ t) = _
    rw [ih x.1 t]
    rfl

theorem pathPrice_append_single (api : Flight → Int) (d0 : Destination)
    (s : List (Destination × Int)) (d : Destination) (dt : Int) :
    pathPrice api d0 (s ++ [(d, dt)]) =
      pathPrice api d0 s + api ⟨(lastDestD d0 s).iata, d.iata, dt⟩ := by
  unfold pathPrice
  rw [legsOf_append]
  simp [legsOf]

theorem chainOk_append_single (restr : DateRestrictions) (d0 : Destination)
    (s : List (Destination × Int)) (d : Destination) (dt : Int) :
    chainOk restr d0 (s ++ [(d, dt)]) ↔
      chainOk restr d0 s ∧ dt ∈ candidateDates restr d (lastDestD d0 s) := by
  induction s generalizing d0 with
  | nil => simp [chainOk, lastDestD]
  | cons x s' ih =>
    show (x.2 ∈ candidateDates restr x.1 d0 ∧ chainOk restr x.1 (s' ++ [(d, dt)])) ↔ _
    rw [ih x.1]
    show _ ↔ (x.2 ∈ candidateDates restr x.1 d0 ∧ chainOk restr x.1 s') ∧ _
    constructor
    · rintro ⟨h1, h2, h3⟩
      exact ⟨⟨h1, h2⟩, h3⟩
    · rintro ⟨⟨h1, h2⟩, h3⟩
      exact ⟨h1, h2, h3⟩

theorem pathPrice_take_le (api : Flight → Int) (hpos : ∀ f, 0 ≤ api f)
    (d0 : Destination) (s : List (Destination × Int)) (k : Nat) :
    pathPrice api d0 (s.take k) ≤ pathPrice api d0 s := by
  conv_rhs => rw [← List.take_append_drop k s]
  rw [show pathPrice api d0 (s.take k ++ s.drop k) =
    ((legsOf d0 (s.take k ++ s.drop k)).map api).sum from rfl, legsOf_append]
  unfold pathPrice
  rw [List.map_append, List.sum_append]
  have : 0 ≤ ((legsOf (lastDestD d0 (s.take k)) (s.drop k)).map api).sum := by
    apply List.sum_nonneg
    intro x hx
    rw [List.mem_map] at hx
    obtain ⟨fl, _, rfl⟩ := hx
    exact hpos fl
  omega

/-! ## Invariant lemmas for search nodes -/

section SearchInv

variable (api : Flight → Int) (restr : DateRestrictions) (src final : Destination)
variable (inter : List Destination)

theorem nodeOK_dest : ∀ n : FlightNode, NodeOK api restr src final inter n →
    n.flight.dest = n.dest_ref.iata
  | .mk f b p Option.none dr, h => by
    obtain ⟨hf, hb, hp, hdr⟩ := h
    rw [FlightNode.flight_mk, FlightNode.dest_ref_mk, hf, hdr]
  | .mk f b p (some prev) dr, h => h.2.2.2.1

theorem nodeOK_lastDest : ∀ n : FlightNode, NodeOK api restr src final inter n →
    lastDestD src (stepsOfNode n) = n.dest_ref
  | .mk f b p Option.none dr, h => by
    obtain ⟨hf, hb, hp, hdr⟩ := h
    rw [hdr]
    rfl
  | .mk f b p (some prev) dr, h => by
    show lastDestD src (stepsOfNode prev ++ [(dr, f.date)]) = dr
    exact lastDestD_append src (stepsOfNode prev) dr f.date

theorem nodeOK_back : ∀ n : FlightNode, NodeOK api restr src final inter n →
    n.back_price = some (pathPrice api src (stepsOfNode n))
  | .mk f b p Option.none dr, h => by
    obtain ⟨hf, hb, hp, hdr⟩ := h
    rw [FlightNode.back_price_mk, hb]
    rfl
  | .mk f b p (some prev) dr, h => by
    obtain ⟨h1, h2, h3, h4, h5, h6, h7, h8⟩ := h
    have hback := nodeOK_back prev h1
    have hkey : nodeKey prev = pathPrice api src (stepsOfNode prev) := by
      unfold nodeKey
      rw [hback]
      rfl
    rw [FlightNode.back_price_mk, h7, hkey]
    show _ = some (pathPrice api src (stepsOfNode prev ++ [(dr, f.date)]))
    rw [pathPrice_append_single, nodeOK_lastDest api restr src final inter prev h1]
    have hf : (⟨prev.dest_ref.iata, dr.iata, f.date⟩ : Flight) = f := by
      have hd := nodeOK_dest api restr src final inter prev h1
      rw [← hd, ← h3, ← h4]
    rw [hf]

theorem nodeOK_chainOk : ∀ n : FlightNode, NodeOK api restr src final inter n →
    chainOk restr src (stepsOfNode n)
  | .mk f b p Option.none dr, _ => trivial
  | .mk f b p (some prev) dr, h => by
    show chainOk restr src (stepsOfNode prev ++ [(dr, f.date)])
    rw [chainOk_append_single]
    refine ⟨nodeOK_chainOk prev h.1, ?_⟩
    rw [nodeOK_lastDest api restr src final inter prev h.1]
    exact h.2.2.2.2.1

theorem nodeOK_chainDests : ∀ n : FlightNode, NodeOK api restr src final inter n →
    ∀ x : String, x ∈ chainDests n ↔
      x = src.iata ∨ x ∈ (stepsOfNode n).map (fun s => s.1.iata)
  | .mk f b p Option.none dr, h, x => by
    obtain ⟨hf, hb, hp, hdr⟩ := h
    show x ∈ [f.dest] ↔ _
    rw [hf]
    simp [stepsOfNode]
  | .mk f b p (some prev) dr, h, x => by
    show x ∈ f.dest :: chainDests prev ↔ _
    have ih := nodeOK_chainDests prev h.1 x
    have h4 : f.dest = dr.iata := h.2.2.2.1
    show x ∈ f.dest :: chainDests prev ↔
      x = src.iata ∨ x ∈ (stepsOfNode prev ++ [(dr, f.date)]).map (fun s => s.1.iata)
    rw [List.map_append, List.mem_cons, ih, h4]
    simp only [List.map_cons, List.map_nil, List.mem_append, List.mem_singleton]
    tauto

theorem nodeOK_no_final_iata : ∀ n : FlightNode, NodeOK api restr src final inter n →
    ((n.prev).isSome → n.flight.dest ≠ final.iata) →
    ∀ s ∈ stepsOfNode n, s.1.iata ≠ final.iata
  | .mk f b p Option.none dr, _, _, s, hs => by
    simp [stepsOfNode] at hs
  | .mk f b p (some prev) dr, h, hng, s, hs => by
    have hs' : s ∈ stepsOfNode prev ++ [(dr, f.date)] := hs
    rcases List.mem_append.mp hs' with hsp | hlast
    · exact nodeOK_no_final_iata prev h.1 h.2.1 s hsp
    · have : s = (dr, f.date) := List.mem_singleton.mp hlast
      rw [this]
      have h4 : f.dest = dr.iata := h.2.2.2.1
      have := hng (by rw [FlightNode.prev_mk]; rfl)
      rw [FlightNode.flight_mk] at this
      rw [← h4]
      exact this

theorem nodeOK_steps_mem : ∀ n : FlightNode, NodeOK api restr src final inter n →
    ∀ s ∈ stepsOfNode n, s.1 ∈ inter ∨ s.1 = final
  | .mk f b p Option.none dr, _, s, hs => by simp [stepsOfNode] at hs
  | .mk f b p (some prev) dr, h, s, hs => by
    have hs' : s ∈ stepsOfNode prev ++ [(dr, f.date)] := hs
    rcases List.mem_append.mp hs' with hsp | hlast
    · exact nodeOK_steps_mem prev h.1 s hsp
    · have : s = (dr, f.date) := List.mem_singleton.mp hlast
      rw [this]
      rcases h.2.2.2.2.2.2.2 with hdr | ⟨_, hdr⟩
      · left
        exact (List.mem_filter.mp hdr).1
      · right
        exact hdr

theorem nodeOK_nodup : ∀ n : FlightNode, NodeOK api restr src final inter n →
    ((stepsOfNode n).map (fun s => s.1.iata)).Nodup
  | .mk f b p Option.none dr, _ => by simp [stepsOfNode]
  | .mk f b p (some prev) dr, h => by
    show ((stepsOfNode prev ++ [(dr, f.date)]).map (fun s => s.1.iata)).Nodup
    rw [List.map_append]
    simp only [List.map_cons, List.map_nil]
    rw [← List.concat_eq_append]
    refine List.Nodup.concat ?_ (nodeOK_nodup prev h.1)
    intro hmem
    rcases h.2.2.2.2.2.2.2 with hdr | ⟨_, hdr⟩
    · have hnot : dr.iata ∉ chainDests prev := by
        have := (List.mem_filter.mp hdr).2
        simpa using this
      exact hnot (((nodeOK_chainDests api restr src final inter prev h.1) dr.iata).mpr
        (Or.inr (by simpa using hmem)))
    · rw [List.mem_map] at hmem
      obtain ⟨s, hsmem, hsiata⟩ := hmem
      have := nodeOK_no_final_iata api restr src final inter prev h.1 h.2.1 s hsmem
      rw [hdr] at hsiata
      exact this hsiata

end SearchInv

section SearchInv2

variable (api : Flight → Int) (restr : DateRestrictions) (src final : Destination)
variable (inter : List Destination)

theorem mem_fill_dest_list {m : FlightNode} {nd : Destination}
    (h : nd ∈ fill_dest_list m final inter) :
    nd ∈ filteredDests m inter ∨ (filteredDests m inter = [] ∧ nd = final) := by
  unfold fill_dest_list at h
  by_cases he : (filteredDests m inter).isEmpty
  · rw [if_pos he] at h
    exact Or.inr ⟨List.isEmpty_iff.mp he, List.mem_singleton.mp h⟩
  · rw [if_neg he] at h
    exact Or.inl h

theorem expand_preserves {m : FlightNode}
    (hm : NodeOK api restr src final inter m)
    (hng : ¬(m.flight.dest = final.iata ∧ (m.prev).isSome)) :
    ∀ c ∈ expand_node api restr m (fill_dest_list m final inter),
      NodeOK api restr src final inter c := by
  intro c hc
  rw [mem_expand_node] at hc
  obtain ⟨nd, hnd, d, hd, rfl⟩ := hc
  refine ⟨hm, fun hp hdest => hng ⟨hdest, hp⟩, rfl, rfl, hd, rfl, rfl,
    mem_fill_dest_list final inter hnd⟩

theorem nodeOK_goal_valid
    (hnodupI : (inter.map Destination.iata).Nodup)
    (hsrcI : src.iata ∉ inter.map Destination.iata)
    (hfinI : final.iata ∉ inter.map Destination.iata)
    (n : FlightNode) (hn : NodeOK api restr src final inter n)
    (hdest : n.flight.dest = final.iata) (hprev : (n.prev).isSome) :
    ValidItin restr src inter final (stepsOfNode n) := by
  match n with
  | .mk f b p Option.none dr => simp at hprev
  | .mk f b p (some prev) dr =>
    have h4 : f.dest = dr.iata := hn.2.2.2.1
    rcases hn.2.2.2.2.2.2.2 with hdr | ⟨hemp, hdr⟩
    · exfalso
      have hdrI : dr ∈ inter := (List.mem_filter.mp hdr).1
      apply hfinI
      rw [← hdest, FlightNode.flight_mk, h4]
      exact List.mem_map_of_mem Destination.iata hdrI
    · have hpre_nodup : ((stepsOfNode prev).map Prod.fst).Nodup := by
        have h1 : (((stepsOfNode prev).map Prod.fst).map Destination.iata).Nodup := by
          rw [List.map_map]
          exact nodeOK_nodup api restr src final inter prev hn.1
        exact List.Nodup.of_map _ h1
      have hinter_nodup : inter.Nodup := List.Nodup.of_map _ hnodupI
      have hnofin := nodeOK_no_final_iata api restr src final inter prev hn.1 hn.2.1
      refine ⟨stepsOfNode prev, f.date, ?_, ?_, ?_⟩
      · show stepsOfNode prev ++ [(dr, f.date)] = stepsOfNode prev ++ [(final, f.date)]
        rw [hdr]
      · rw [List.perm_ext_iff_of_nodup hpre_nodup hinter_nodup]
        intro e
        constructor
        · intro he
          rw [List.mem_map] at he
          obtain ⟨s, hsmem, rfl⟩ := he
          rcases nodeOK_steps_mem api restr src final inter prev hn.1 s hsmem with h | h
          · exact h
          · exfalso
            exact hnofin s hsmem (by rw [h])
        · intro he
          have hchain : e.iata ∈ chainDests prev := by
            have := List.filter_eq_nil_iff.mp hemp e he
            simpa using this
          rcases (nodeOK_chainDests api restr src final inter prev hn.1 e.iata).mp hchain
            with heq | hmem
          · exfalso
            apply hsrcI
            rw [← heq]
            exact List.mem_map_of_mem Destination.iata he
          · rw [List.mem_map] at hmem
            obtain ⟨s, hsmem, hsi⟩ := hmem
            have hsin : s.1 ∈ inter := by
              rcases nodeOK_steps_mem api restr src final inter prev hn.1 s hsmem with h | h
              · exact h
              · exfalso
                exact hnofin s hsmem (by rw [h])
            have : s.1 = e := List.inj_on_of_nodup_map hnodupI hsin he hsi
            rw [List.mem_map]
            exact ⟨s, hsmem, this⟩
      · exact nodeOK_chainOk api restr src final inter _ hn

end SearchInv2

theorem nodup_get_not_mem_take {l : List String} (hl : l.Nodup) (k : Nat)
    (hk : k < l.length) : l.get ⟨k, hk⟩ ∉ l.take k := by
  intro hmem
  have hsplit := List.take_append_drop k l
  rw [← hsplit] at hl
  have hdisj := (List.nodup_append.mp hl).2.2
  have hdrop : l.get ⟨k, hk⟩ ∈ l.drop k := by
    rw [List.drop_eq_getElem_cons hk]
    exact List.mem_cons_self _ _
  exact hdisj hmem hdrop

theorem chainOk_get (restr : DateRestrictions) :
    ∀ (l : List (Destination × Int)) (d0 : Destination), chainOk restr d0 l →
      ∀ (k : Nat) (hk : k < l.length),
        (l.get ⟨k, hk⟩).2 ∈ candidateDates restr (l.get ⟨k, hk⟩).1 (lastDestD d0 (l.take k)) := by
  intro l
  induction l with
  | nil => intro d0 _ k hk; simp at hk
  | cons x l' ih =>
    intro d0 hchain k hk
    obtain ⟨hx, hrest⟩ := hchain
    match k with
    | 0 => exact hx
    | Nat.succ k' =>
      show (l'.get ⟨k', _⟩).2 ∈
        candidateDates restr (l'.get ⟨k', _⟩).1 (lastDestD d0 ((x :: l').take (k' + 1)))
      have : (x :: l').take (k' + 1) = x :: l'.take k' := rfl
      rw [this]
      show _ ∈ candidateDates restr _ (lastDestD x.1 (l'.take k'))
      exact ih x.1 hrest k' (by simpa using hk)

/-- If a non-goal node realizing a strict prefix of a valid itinerary is
expanded, some pushed child realizes the next longer prefix. -/
theorem step_pref (api : Flight → Int) (restr : DateRestrictions) (src final : Destination)
    (inter : List Destination)
    (hnodupI : (inter.map Destination.iata).Nodup)
    (hsrcI : src.iata ∉ inter.map Destination.iata)
    {m : FlightNode} (hm : NodeOK api restr src final inter m)
    (hng : ¬(m.flight.dest = final.iata ∧ (m.prev).isSome))
    {steps : List (Destination × Int)}
    (hv : ValidItin restr src inter final steps) (hpref : IsPref m steps) :
    ∃ c ∈ expand_node api restr m (fill_dest_list m final inter), IsPref c steps := by
  obtain ⟨pre, dFin, rfl, hperm, hchain⟩ := hv
  unfold IsPref at hpref
  set k := (stepsOfNode m).length with hkdef
  have hlen : (pre ++ [(final, dFin)]).length = pre.length + 1 := by simp
  have hk_le : k ≤ (pre ++ [(final, dFin)]).length := by
    have := congrArg List.length hpref
    rw [List.length_take] at this
    omega
  have hk_lt : k < (pre ++ [(final, dFin)]).length := by
    rcases Nat.lt_or_ge k (pre ++ [(final, dFin)]).length with h | h
    · exact h
    · exfalso
      have hkeq : k = (pre ++ [(final, dFin)]).length := le_antisymm hk_le h
      have hfull : stepsOfNode m = pre ++ [(final, dFin)] := by
        rw [hpref, hkeq, List.take_length]
      apply hng
      constructor
      · rw [nodeOK_dest api restr src final inter m hm]
        have h1 := nodeOK_lastDest api restr src final inter m hm
        rw [← h1, hfull, lastDestD_append]
      · have hne : stepsOfNode m ≠ [] := by
          rw [hfull]
          simp
        rcases hp : m.prev with _ | p
        · rw [(stepsOfNode_eq_nil_iff m).mpr hp] at hne
          exact absurd rfl hne
        · rfl
  rcases hget : (pre ++ [(final, dFin)]).get ⟨k, hk_lt⟩ with ⟨d, dt⟩
  have hstep := chainOk_get restr (pre ++ [(final, dFin)]) src hchain k hk_lt
  rw [hget] at hstep
  have hlast : lastDestD src ((pre ++ [(final, dFin)]).take k) = m.dest_ref := by
    rw [← hpref]
    exact nodeOK_lastDest api restr src final inter m hm
  rw [hlast] at hstep
  have hpreI : ((pre.map Prod.fst).map Destination.iata).Nodup :=
    (List.Perm.nodup_iff (List.Perm.map Destination.iata hperm)).mpr hnodupI
  have hfill : d ∈ fill_dest_list m final inter := by
    rcases Nat.lt_or_ge k pre.length with hkp | hkp
    · -- the next hop is an unvisited intermediate destination
      have hgetl : (pre ++ [(final, dFin)])[k] = pre[k] :=
        List.getElem_append_left hkp
      have hd : d = (pre[k]).1 := by
        have h0 : (pre ++ [(final, dFin)]).get ⟨k, hk_lt⟩ =
            (pre ++ [(final, dFin)])[k] := rfl
        have h1 : (d, dt) = (pre ++ [(final, dFin)])[k] := by
          rw [← hget, h0]
        rw [hgetl] at h1
        exact congrArg Prod.fst h1
      have hdin : pre[k] ∈ pre := List.getElem_mem hkp
      have hdinter : d ∈ inter := by
        rw [hd]
        exact (List.Perm.mem_iff hperm).mp (List.mem_map_of_mem Prod.fst hdin)
      have hdiataI : d.iata ∈ inter.map Destination.iata :=
        List.mem_map_of_mem Destination.iata hdinter
      have htake : stepsOfNode m = pre.take k := by
        rw [hpref, List.take_append_of_le_length (le_of_lt hkp)]
      have hnotchain : d.iata ∉ chainDests m := by
        intro hmem
        rcases (nodeOK_chainDests api restr src final inter m hm d.iata).mp hmem
          with heq | hmem'
        · exact hsrcI (heq ▸ hdiataI)
        · rw [htake] at hmem'
          rw [show (fun s : Destination × Int => s.1.iata) =
            Destination.iata ∘ Prod.fst from rfl, ← List.map_map] at hmem'
          have hmem2 := hmem'
          rw [List.map_take, List.map_take] at hmem2
          have hval : ((pre.map Prod.fst).map Destination.iata).get
              ⟨k, by simpa using hkp⟩ = d.iata := by
            simp [hd]
          have := nodup_get_not_mem_take hpreI k (by simpa using hkp)
          rw [hval] at this
          exact this hmem2
      have hdfilt : d ∈ filteredDests m inter := by
        unfold filteredDests
        rw [List.mem_filter]
        exact ⟨hdinter, by simpa using hnotchain⟩
      unfold fill_dest_list
      by_cases he : (filteredDests m inter).isEmpty
      · rw [List.isEmpty_iff.mp he] at hdfilt
        cases hdfilt
      · rw [if_neg he]
        exact hdfilt
    · -- every intermediate is visited: the next hop is the final anchor
      have hkeq : k = pre.length := by omega
      have hdfin : d = final ∧ dt = dFin := by
        have h2 : (pre ++ [(final, dFin)])[k] = (final, dFin) :=
          List.getElem_concat_length pre (final, dFin) k hkeq hk_lt
        have h0 : (pre ++ [(final, dFin)]).get ⟨k, hk_lt⟩ =
            (pre ++ [(final, dFin)])[k] := rfl
        have h1 : (d, dt) = (final, dFin) := by
          rw [← hget, h0, h2]
        exact ⟨congrArg Prod.fst h1, congrArg Prod.snd h1⟩
      have htake : stepsOfNode m = pre := by
        rw [hpref, hkeq, List.take_append_of_le_length le_rfl, List.take_length]
      have hemp : filteredDests m inter = [] := by
        unfold filteredDests
        rw [List.filter_eq_nil_iff]
        intro e he
        simp only [decide_eq_true_eq, Decidable.not_not]
        apply (nodeOK_chainDests api restr src final inter m hm e.iata).mpr
        right
        rw [htake]
        have : e ∈ pre.map Prod.fst := (List.Perm.mem_iff hperm).mpr he
        rw [List.mem_map] at this
        obtain ⟨s, hs, rfl⟩ := this
        exact List.mem_map_of_mem (fun s => s.1.iata) hs
      unfold fill_dest_list
      rw [hemp]
      rw [hdfin.1]
      exact List.mem_singleton.mpr rfl
  refine ⟨FlightNode.mk ⟨m.flight.dest, d.iata, dt⟩
    (some (nodeKey m + api ⟨m.flight.dest, d.iata, dt⟩))
    (some (api ⟨m.flight.dest, d.iata, dt⟩)) (some m) d, ?_, ?_⟩
  · rw [mem_expand_node]
    exact ⟨d, hfill, dt, hstep, rfl⟩
  · unfold IsPref
    have hsteps_c : stepsOfNode (FlightNode.mk ⟨m.flight.dest, d.iata, dt⟩
        (some (nodeKey m + api ⟨m.flight.dest, d.iata, dt⟩))
        (some (api ⟨m.flight.dest, d.iata, dt⟩)) (some m) d) =
        stepsOfNode m ++ [(d, dt)] := rfl
    rw [hsteps_c, List.length_append]
    rw [hpref]
    have hgel : (d, dt) = (pre ++ [(final, dFin)])[k] := by
      have h0 : (pre ++ [(final, dFin)]).get ⟨k, hk_lt⟩ =
          (pre ++ [(final, dFin)])[k] := rfl
      rw [← hget, h0]
    rw [hgel]
    rw [List.take_concat_get']
    simp
    omega

theorem nodeKey_le_total (api : Flight → Int) (restr : DateRestrictions)
    (src final : Destination) (inter : List Destination) (hpos : ∀ f, 0 ≤ api f)
    {n : FlightNode} (hn : NodeOK api restr src final inter n)
    {steps : List (Destination × Int)} (hpref : IsPref n steps) :
    nodeKey n ≤ pathPrice api src steps := by
  unfold nodeKey
  rw [nodeOK_back api restr src final inter n hn]
  show pathPrice api src (stepsOfNode n) ≤ _
  unfold IsPref at hpref
  rw [hpref]
  exact pathPrice_take_le api hpos src steps _

/-- Master lemma for the pop/expand loop: from a frontier whose nodes all
satisfy the construction invariant and which still holds a prefix of
every valid itinerary, a successful run returns a goal node at least as
cheap as every valid itinerary. -/
theorem searchLoop_ok (api : Flight → Int) (restr : DateRestrictions)
    (src final : Destination) (inter : List Destination)
    (hnodupI : (inter.map Destination.iata).Nodup)
    (hsrcI : src.iata ∉ inter.map Destination.iata)
    (hpos : ∀ f, 0 ≤ api f) :
    ∀ (fuel : Nat) (queue : List FlightNode) (g : FlightNode),
      (∀ n ∈ queue, NodeOK api restr src final inter n) →
      (∀ steps, ValidItin restr src inter final steps → ∃ n ∈ queue, IsPref n steps) →
      searchLoop api restr final inter fuel queue = some (Except.ok g) →
      NodeOK api restr src final inter g ∧
      g.flight.dest = final.iata ∧ (g.prev).isSome ∧
      (∀ steps, ValidItin restr src inter final steps →
        nodeKey g ≤ pathPrice api src steps) := by
  intro fuel
  induction fuel with
  | zero => intro queue g _ _ hrun; cases hrun
  | succ fuel ih =>
    intro queue g hQ hreach hrun
    unfold searchLoop at hrun
    match hpop : popMinQ queue with
    | Option.none => rw [hpop] at hrun; cases hrun
    | some (top, rest) =>
      rw [hpop] at hrun
      dsimp only at hrun
      have hperm := popMinQ_perm hpop
      have htopq : top ∈ queue := (List.Perm.mem_iff hperm).mpr (List.mem_cons_self _ _)
      by_cases hgoal : top.flight.dest = final.iata ∧ (top.prev).isSome
      · rw [if_pos hgoal] at hrun
        have hg : g = top := by cases hrun; rfl
        subst hg
        refine ⟨hQ _ htopq, hgoal.1, hgoal.2, ?_⟩
        intro steps hv
        obtain ⟨n, hnq, hnpref⟩ := hreach steps hv
        exact le_trans (popMinQ_min hpop n hnq)
          (nodeKey_le_total api restr src final inter hpos (hQ n hnq) hnpref)
      · rw [if_neg hgoal] at hrun
        apply ih _ g _ _ hrun
        · intro n hn
          rcases List.mem_append.mp hn with hn | hn
          · exact hQ n ((List.Perm.mem_iff hperm).mpr (List.mem_cons_of_mem _ hn))
          · exact expand_preserves api restr src final inter (hQ top htopq) hgoal n hn
        · intro steps hv
          obtain ⟨n, hnq, hnpref⟩ := hreach steps hv
          rcases List.mem_cons.mp ((List.Perm.mem_iff hperm).mp hnq) with rfl | hn
          · obtain ⟨c, hc, hcpref⟩ := step_pref api restr src final inter hnodupI hsrcI
              (hQ n hnq) hgoal hv hnpref
            exact ⟨c, List.mem_append_right _ hc, hcpref⟩
          · exact ⟨n, List.mem_append_left _ hn, hnpref⟩

theorem chainList_ne_nil : ∀ n : FlightNode, chainList n ≠ []
  | .mk f b p Option.none dr => by simp [chainList]
  | .mk f b p (some prev) dr => by simp [chainList]

theorem chainList_steps : ∀ n : FlightNode, stepsOfNodes (chainList n) = stepsOfNode n
  | .mk f b p Option.none dr => rfl
  | .mk f b p (some prev) dr => by
    show stepsOfNodes (chainList prev ++ [.mk f b p (some prev) dr]) =
      stepsOfNode prev ++ [(dr, f.date)]
    unfold stepsOfNodes
    have hlen1 : 1 ≤ (chainList prev).length := by
      have := chainList_ne_nil prev
      cases hc : chainList prev
      · exact absurd hc this
      · simp
    rw [List.drop_append_of_le_length hlen1, List.map_append]
    have ih := chainList_steps prev
    unfold stepsOfNodes at ih
    rw [ih]
    rfl

theorem chainList_total (api : Flight → Int) (restr : DateRestrictions)
    (src final : Destination) (inter : List Destination) :
    ∀ n : FlightNode, NodeOK api restr src final inter n →
      resultTotal (chainList n) = nodeKey n
  | .mk f b p Option.none dr, h => by
    obtain ⟨hf, hb, hp, hdr⟩ := h
    show resultTotal [.mk f b p Option.none dr] = (FlightNode.mk f b p Option.none dr).back_price.getD 0
    rw [FlightNode.back_price_mk, hb]
    rfl
  | .mk f b p (some prev) dr, h => by
    show resultTotal (chainList prev ++ [.mk f b p (some prev) dr]) = _
    unfold resultTotal
    have hlen1 : 1 ≤ (chainList prev).length := by
      have := chainList_ne_nil prev
      cases hc : chainList prev
      · exact absurd hc this
      · simp
    rw [List.drop_append_of_le_length hlen1, List.map_append, List.sum_append]
    have ih := chainList_total api restr src final inter prev h.1
    unfold resultTotal at ih
    rw [ih]
    have hp : p = some (api f) := h.2.2.2.2.2.1
    have hb : b = some (nodeKey prev + api f) := h.2.2.2.2.2.2.1
    show nodeKey prev + ((FlightNode.mk f b p (some prev) dr).price.getD 0 + 0) =
      nodeKey (FlightNode.mk f b p (some prev) dr)
    unfold nodeKey
    rw [FlightNode.price_mk, FlightNode.back_price_mk, hp, hb]
    show nodeKey prev + (api f + 0) = nodeKey prev + api f
    omega

theorem perform_split (api : Flight → Int) (restr : DateRestrictions)
    (src final : Destination) (inter : List Destination) (fuel : Nat) :
    perform_graph_search api restr (src :: (inter ++ [final])) fuel =
      (match searchLoop api restr final inter fuel [sentinelNode src] with
       | Option.none => Option.none
       | some (Except.error e) => some (Except.error e)
       | some (Except.ok g) => some (Except.ok (chainList g))) := by
  cases inter with
  | nil => rfl
  | cons i0 is =>
    show perform_graph_search api restr (src :: i0 :: (is ++ [final])) fuel = _
    unfold perform_graph_search
    dsimp only
    have h1 : List.getLastD (is ++ [final]) i0 = final := List.getLastD_concat i0 final is
    have h2 : (i0 :: (is ++ [final])).dropLast = i0 :: is := by
      rw [show i0 :: (is ++ [final]) = (i0 :: is) ++ [final] from rfl, List.dropLast_concat]
    rw [h1, h2]

/-- Light version of the loop lemma: any returned goal node satisfies the
construction invariant and the goal test (no problem-shape hypotheses
needed). -/
theorem searchLoop_nodeOK (api : Flight → Int) (restr : DateRestrictions)
    (src final : Destination) (inter : List Destination) :
    ∀ (fuel : Nat) (queue : List FlightNode) (g : FlightNode),
      (∀ n ∈ queue, NodeOK api restr src final inter n) →
      searchLoop api restr final inter fuel queue = some (Except.ok g) →
      NodeOK api restr src final inter g ∧
      g.flight.dest = final.iata ∧ (g.prev).isSome := by
  intro fuel
  induction fuel with
  | zero => intro queue g _ hrun; cases hrun
  | succ fuel ih =>
    intro queue g hQ hrun
    unfold searchLoop at hrun
    match hpop : popMinQ queue with
    | Option.none => rw [hpop] at hrun; cases hrun
    | some (top, rest) =>
      rw [hpop] at hrun
      dsimp only at hrun
      have hperm := popMinQ_perm hpop
      have htopq : top ∈ queue := (List.Perm.mem_iff hperm).mpr (List.mem_cons_self _ _)
      by_cases hgoal : top.flight.dest = final.iata ∧ (top.prev).isSome
      · rw [if_pos hgoal] at hrun
        have hg : g = top := by cases hrun; rfl
        subst hg
        exact ⟨hQ _ htopq, hgoal.1, hgoal.2⟩
      · rw [if_neg hgoal] at hrun
        apply ih _ g _ hrun
        intro n hn
        rcases List.mem_append.mp hn with hn | hn
        · exact hQ n ((List.Perm.mem_iff hperm).mpr (List.mem_cons_of_mem _ hn))
        · exact expand_preserves api restr src final inter (hQ top htopq) hgoal n hn

theorem chainList_dests (api : Flight → Int) (restr : DateRestrictions)
    (src final : Destination) (inter : List Destination) :
    ∀ n : FlightNode, NodeOK api restr src final inter n →
      ((chainList n).drop 1).map (fun x => x.flight.dest) =
        (stepsOfNode n).map (fun s => s.1.iata)
  | .mk f b p Option.none dr, _ => rfl
  | .mk f b p (some prev) dr, h => by
    show ((chainList prev ++ [FlightNode.mk f b p (some prev) dr]).drop 1).map
        (fun x : FlightNode => x.flight.dest) =
      (stepsOfNode prev ++ [(dr, f.date)]).map (fun s => s.1.iata)
    have hlen1 : 1 ≤ (chainList prev).length := by
      have := chainList_ne_nil prev
      cases hc : chainList prev
      · exact absurd hc this
      · simp
    rw [List.drop_append_of_le_length hlen1, List.map_append, List.map_append]
    rw [chainList_dests api restr src final inter prev h.1]
    have h4 : f.dest = dr.iata := h.2.2.2.1
    simp [h4]

/-! ## Claim C1 -/

/-- C1 counterexample.  The problem has the origin anchor first and the
final anchor last, and all oracle prices are non-negative, yet the solve
returns an itinerary of total price 10 while a path that visits the one
intermediate destination exactly once on feasible dates costs 3: because
the intermediate shares the origin's IATA code, `fill_dest_list` filters
it out of every expansion (the sentinel's destination is always on the
chain), so the search never considers it and jumps straight to the final
anchor. -/
theorem C1_counterexample :
    (∀ fl, 0 ≤ c1Api fl) ∧
    perform_graph_search c1Api noRestr [c1Src, c1Dup, c1Final] 6 =
      some (Except.ok [sentinelNode c1Src,
        FlightNode.mk ⟨"AAA", "BBB", 1⟩ (some 10) (some 10)
          (some (sentinelNode c1Src)) c1Final]) ∧
    resultTotal [sentinelNode c1Src,
        FlightNode.mk ⟨"AAA", "BBB", 1⟩ (some 10) (some 10)
          (some (sentinelNode c1Src)) c1Final] = 10 ∧
    ValidItin noRestr c1Src [c1Dup] c1Final [(c1Dup, 1), (c1Final, 2)] ∧
    pathPrice c1Api c1Src [(c1Dup, 1), (c1Final, 2)] = 3 ∧
    ¬ ((10 : Int) ≤ 3) :=
  ⟨fun fl => by unfold c1Api; split_ifs <;> omega,
    by decide, by decide,
    ⟨[(c1Dup, 1)], 2, rfl, by decide, ⟨by decide, by decide, trivial⟩⟩,
    by decide, by decide⟩

/-- C1 (amended): **provided** the intermediate destinations' IATA codes
are pairwise distinct and distinct from both anchors' codes, a successful
solve returns an itinerary that is valid — it goes from the origin anchor
through every intermediate destination exactly once to the final anchor
on enumerated candidate dates — and whose total price is minimal among
all such itineraries. -/
theorem C1_optimal_amended (api : Flight → Int) (restr : DateRestrictions)
    (src final : Destination) (inter : List Destination) (fuel : Nat)
    (nodes : List FlightNode)
    (hnodupI : (inter.map Destination.iata).Nodup)
    (hsrcI : src.iata ∉ inter.map Destination.iata)
    (hfinI : final.iata ∉ inter.map Destination.iata)
    (hpos : ∀ f, 0 ≤ api f)
    (hrun : perform_graph_search api restr (src :: (inter ++ [final])) fuel =
      some (Except.ok nodes)) :
    ValidItin restr src inter final (stepsOfNodes nodes) ∧
    ∀ steps, ValidItin restr src inter final steps →
      resultTotal nodes ≤ pathPrice api src steps := by
  rw [perform_split] at hrun
  match hloop : searchLoop api restr final inter fuel [sentinelNode src] with
  | Option.none => rw [hloop] at hrun; cases hrun
  | some (Except.error e) => rw [hloop] at hrun; cases hrun
  | some (Except.ok g) =>
    rw [hloop] at hrun
    have hnodes : nodes = chainList g := by cases hrun; rfl
    subst hnodes
    have hsent : ∀ n ∈ [sentinelNode src], NodeOK api restr src final inter n := by
      intro n hn
      rw [List.mem_singleton] at hn
      subst hn
      exact ⟨rfl, rfl, rfl, rfl⟩
    have hreach : ∀ steps, ValidItin restr src inter final steps →
        ∃ n ∈ [sentinelNode src], IsPref n steps := by
      intro steps _
      exact ⟨sentinelNode src, List.mem_singleton.mpr rfl, rfl⟩
    obtain ⟨hgOK, hgdest, hgprev, hmin⟩ :=
      searchLoop_ok api restr src final inter hnodupI hsrcI hpos fuel
        [sentinelNode src] g hsent hreach hloop
    constructor
    · rw [chainList_steps]
      exact nodeOK_goal_valid api restr src final inter hnodupI hsrcI hfinI
        g hgOK hgdest hgprev
    · intro steps hv
      rw [chainList_total api restr src final inter g hgOK]
      exact hmin steps hv

/-- Witness for C1 at a concrete two-anchor problem (no intermediates,
constant price 7): the returned itinerary is valid and minimal. -/
theorem C1_witness :
    ValidItin noRestr c1Src [] c1Final
      (stepsOfNodes [sentinelNode c1Src,
        FlightNode.mk ⟨"AAA", "BBB", 1⟩ (some 7) (some 7)
          (some (sentinelNode c1Src)) c1Final]) ∧
    ∀ steps, ValidItin noRestr c1Src [] c1Final steps →
      resultTotal [sentinelNode c1Src,
        FlightNode.mk ⟨"AAA", "BBB", 1⟩ (some 7) (some 7)
          (some (sentinelNode c1Src)) c1Final] ≤ pathPrice (fun _ => 7) c1Src steps :=
  C1_optimal_amended (fun _ => 7) noRestr c1Src c1Final [] 4 _
    (by decide) (by decide) (by decide) (fun _ => by show (0:Int) ≤ 7; decide) (by decide)

/-! ## Claim C2 -/

/-- C2 (code bug): on an over-constrained problem the frontier empties
and `perform_graph_search` duly reports the solver-level infeasibility
error — but `Router::calc` then calls `problem_res.unwrap()` (source
comment: "For now panic if flight not possible"), so the solve **panics**
(modelled as the inner `none`) instead of returning the error to the
caller as the spec requires. -/
theorem C2_calc_panics_on_infeasible :
    perform_graph_search (fun _ => 0) noRestr [c2Src, c2Final] 3 =
      some (Except.error "Itinerary cannot solve, adjust parameters") ∧
    calcModel (fun _ => 0) noRestr [c2Src, c2Final] 3 = some Option.none := by
  decide

/-! ## Claim C4 -/

/-- C4: (a) on every itinerary a successful solve returns, the flight
destinations of the non-sentinel nodes are pairwise distinct — so no
intermediate destination's IATA code occurs as the flight destination of
two distinct nodes of the returned path (the backtraced itinerary with
the sentinel dropped); (b) the filtering stage of `fill_dest_list`
excludes every destination whose code equals the popped node's own
destination or appears anywhere on its ancestor chain. -/
theorem C4_no_repeated_intermediate (api : Flight → Int) (restr : DateRestrictions)
    (dest_list : List Destination) (fuel : Nat) (nodes : List FlightNode)
    (hrun : perform_graph_search api restr dest_list fuel = some (Except.ok nodes)) :
    ((nodes.drop 1).map (fun x : FlightNode => x.flight.dest)).Pairwise (· ≠ ·) ∧
    ∀ (curr : FlightNode) (init : List Destination) (e : Destination),
      e.iata ∈ chainDests curr → e ∉ filteredDests curr init := by
  constructor
  · match dest_list with
    | [] => cases hrun
    | [_] => cases hrun
    | src :: d2 :: ds =>
      have hform : perform_graph_search api restr (src :: d2 :: ds) fuel =
          (match searchLoop api restr (List.getLastD ds d2) ((d2 :: ds).dropLast) fuel
              [sentinelNode src] with
           | Option.none => Option.none
           | some (Except.error e) => some (Except.error e)
           | some (Except.ok g) => some (Except.ok (chainList g))) := rfl
      rw [hform] at hrun
      match hloop : searchLoop api restr (List.getLastD ds d2) ((d2 :: ds).dropLast) fuel
          [sentinelNode src] with
      | Option.none => rw [hloop] at hrun; cases hrun
      | some (Except.error e) => rw [hloop] at hrun; cases hrun
      | some (Except.ok g) =>
        rw [hloop] at hrun
        have hnodes : nodes = chainList g := by cases hrun; rfl
        subst hnodes
        have hsent : ∀ n ∈ [sentinelNode src],
            NodeOK api restr src (List.getLastD ds d2) ((d2 :: ds).dropLast) n := by
          intro n hn
          rw [List.mem_singleton] at hn
          subst hn
          exact ⟨rfl, rfl, rfl, rfl⟩
        obtain ⟨hgOK, _, _⟩ := searchLoop_nodeOK api restr src (List.getLastD ds d2)
          ((d2 :: ds).dropLast) fuel [sentinelNode src] g hsent hloop
        rw [chainList_dests api restr src (List.getLastD ds d2) ((d2 :: ds).dropLast) g hgOK]
        exact nodeOK_nodup api restr src (List.getLastD ds d2) ((d2 :: ds).dropLast) g hgOK
  · intro curr init e hmem hfilt
    unfold filteredDests at hfilt
    rw [List.mem_filter] at hfilt
    have := hfilt.2
    simp only [decide_eq_true_eq] at this
    exact this hmem

/-- Witness for C4: a concrete successful run. -/
theorem C4_witness :
    (([sentinelNode c1Src,
        FlightNode.mk ⟨"AAA", "BBB", 1⟩ (some 7) (some 7)
          (some (sentinelNode c1Src)) c1Final].drop 1).map
      (fun x : FlightNode => x.flight.dest)).Pairwise (· ≠ ·) ∧
    ∀ (curr : FlightNode) (init : List Destination) (e : Destination),
      e.iata ∈ chainDests curr → e ∉ filteredDests curr init :=
  C4_no_repeated_intermediate (fun _ => 7) noRestr [c1Src, c1Final] 4 _ (by decide)

/-! ## Claim C10 -/

/-- C10: along the whole run of the search loop (every frontier state in
the trace, seeded as `perform_graph_search` seeds it), every node carries
concrete (`some`) cumulative and leg prices — the sentinel is seeded with
0 and every child is built from its parent's price plus the leg price —
so `FlightNode`'s `Ord::cmp` never reaches its "Comparing empty price"
panic branch (modelled by `cmpFlightNode` returning `none`) on any two
frontier members. -/
theorem C10_no_price_panic (api : Flight → Int) (restr : DateRestrictions)
    (final_dest src : Destination) (init_dest_list : List Destination) (fuel : Nat) :
    ∀ q ∈ searchTrace api restr final_dest init_dest_list fuel [sentinelNode src],
      ∀ a ∈ q, (a.back_price).isSome ∧ (a.price).isSome ∧
        ∀ b ∈ q, cmpFlightNode a b ≠ Option.none := by
  have key : ∀ (fuel : Nat) (queue : List FlightNode),
      (∀ n ∈ queue, (n.back_price).isSome ∧ (n.price).isSome) →
      ∀ q ∈ searchTrace api restr final_dest init_dest_list fuel queue,
        ∀ a ∈ q, (a.back_price).isSome ∧ (a.price).isSome := by
    intro fuel
    induction fuel with
    | zero =>
      intro queue hq q hmem a ha
      rcases List.mem_singleton.mp hmem with rfl
      exact hq a ha
    | succ fuel ih =>
      intro queue hq q hmem a ha
      unfold searchTrace at hmem
      rcases List.mem_cons.mp hmem with rfl | htail
      · exact hq a ha
      · match hpop : popMinQ queue with
        | Option.none => rw [hpop] at htail; cases htail
        | some (top, rest) =>
          rw [hpop] at htail
          dsimp only at htail
          by_cases hgoal : top.flight.dest = final_dest.iata ∧ (top.prev).isSome
          · rw [if_pos hgoal] at htail; cases htail
          · rw [if_neg hgoal] at htail
            refine ih _ ?_ q htail a ha
            intro n hn
            rcases List.mem_append.mp hn with hn | hn
            · exact hq n ((List.Perm.mem_iff (popMinQ_perm hpop)).mpr
                (List.mem_cons_of_mem _ hn))
            · rw [mem_expand_node] at hn
              obtain ⟨nd, _, d, _, rfl⟩ := hn
              exact ⟨rfl, rfl⟩
  intro q hmem a ha
  have hsent : ∀ n ∈ [sentinelNode src], (n.back_price).isSome ∧ (n.price).isSome := by
    intro n hn
    rcases List.mem_singleton.mp hn with rfl
    exact ⟨rfl, rfl⟩
  obtain ⟨hb, hp⟩ := key fuel [sentinelNode src] hsent q hmem a ha
  refine ⟨hb, hp, ?_⟩
  intro b hbq
  obtain ⟨hb', _⟩ := key fuel [sentinelNode src] hsent q hmem b hbq
  obtain ⟨x, hx⟩ := Option.isSome_iff_exists.mp hb
  obtain ⟨y, hy⟩ := Option.isSome_iff_exists.mp hb'
  unfold cmpFlightNode
  rw [hx, hy]
  simp

/-- Witness for C10 at a concrete trace state. -/
theorem C10_witness :
    ((sentinelNode c2Src).back_price).isSome ∧ ((sentinelNode c2Src).price).isSome ∧
    ∀ b ∈ [sentinelNode c2Src], cmpFlightNode (sentinelNode c2Src) b ≠ Option.none :=
  C10_no_price_panic (fun _ => 0) noRestr c2Final c2Src [] 0
    [sentinelNode c2Src] (by decide) (sentinelNode c2Src) (by decide)
